import Mathlib

/-!
Verification of the core matching engine of `photo_export_utils`
(`search_for_matches/folder_set_delta.py`): perceptual-hash candidate
retrieval over a chunk inverted index, ORB/RANSAC geometric confirmation,
an incremental persistent per-set index, and the bidirectional matcher.

The Python code is shallowly embedded: pure helpers become Lean functions;
external libraries (PIL/rawpy decoding, imagehash, OpenCV) are oracles
supplied as function-valued environment fields; SQLite tables become lists
of rows keyed by path.  Perceptual hashes are embedded as lists of hex-digit
values (`List Nat`, one element per hex character of the 16-character hash
string), so Hamming distance is the sum of per-nibble popcounts of xors,
exactly what `imagehash.hex_to_hash` / `ImageHash.__sub__` compute.
-/

namespace FolderSetDelta

/-- Popcount of the low four bits of a natural number: the number of set
bits contributed by one hex digit of a hash string. -/
def nibblePop (a : Nat) : Nat :=
  a % 2 + a / 2 % 2 + a / 4 % 2 + a / 8 % 2

/-- Hamming distance between two hashes given as lists of hex-digit values,
as computed by `imagehash.hex_to_hash` plus `ImageHash.__sub__` (count of
differing bits over the aligned bit arrays). -/
def hamming : List Nat → List Nat → Nat
  | a :: as, b :: bs => nibblePop (a ^^^ b) + hamming as bs
  | _, _ => 0

/-- `phash_chunks` with the fixed `chunk_len = 4` used at every call site:
split the hex-digit list into consecutive chunks of four digits. -/
def chunksOf4 : List Nat → List (List Nat)
  | [] => []
  | [a] => [[a]]
  | [a, b] => [[a, b]]
  | [a, b, c] => [[a, b, c]]
  | a :: b :: c :: d :: rest => [a, b, c, d] :: chunksOf4 rest

/-- Number of chunk positions at which two hashes carry the same chunk
value (the positional reading of two fingerprints "sharing chunks"). -/
def sharedChunks (t e : List Nat) : Nat :=
  ((chunksOf4 t).zip (chunksOf4 e)).countP (fun p => decide (p.1 = p.2))

/-- Total number of (query-chunk-position, entry-chunk-position) pairs with
equal chunk values.  This is exactly the per-entry count accumulated by
`candidates_for_hash` through the chunk inverted index. -/
def pairCount (t e : List Nat) : Nat :=
  ((chunksOf4 t).map (fun c => (chunksOf4 e).count c)).sum

/-- One indexed image (dataclass `Entry`). -/
structure Entry where
  path : String
  ext : String
  phash_hex : List Nat
deriving DecidableEq, Inhabited

/-- Helper for `build_chunk_index`: occurrences (with multiplicity) of the
chunk value `c` among the entries, as entry positions starting at `i`.
This is the list `idx[c]` that the Python `defaultdict` holds after the
build loop, in its append order. -/
def chunkIndexFrom : List Entry → Nat → List Nat → List Nat
  | [], _, _ => []
  | e :: rest, i, c =>
      ((chunksOf4 e.phash_hex).filterMap (fun c' => if c' = c then some i else none))
        ++ chunkIndexFrom rest (i + 1) c

/-- `build_chunk_index(entries)`: the inverted chunk index, embedded as the
lookup function chunk value ↦ list of entry positions (`idx.get(c, [])`). -/
def build_chunk_index (entries : List Entry) : List Nat → List Nat :=
  fun c => chunkIndexFrom entries 0 c

/-- One step of `counts[i] += 1` on a Python dict embedded as an
insertion-ordered association list: increment the existing binding of `i`,
or append a fresh binding `(i, 1)`. -/
def bump : List (Nat × Nat) → Nat → List (Nat × Nat)
  | [], i => [(i, 1)]
  | (j, k) :: rest, i => if j = i then (j, k + 1) :: rest else (j, k) :: bump rest i

/-- Value stored for key `i` in the association list (0 when absent). -/
def valueAt (l : List (Nat × Nat)) (i : Nat) : Nat :=
  match l.find? (fun jk => jk.1 == i) with
  | some jk => jk.2
  | none => 0

/-- The `counts` Counter of `candidates_for_hash`: for each chunk of the
target hash, bump every entry position listed under that chunk. -/
def chunk_counts (target : List Nat) (dst_index : List Nat → List Nat) :
    List (Nat × Nat) :=
  (chunksOf4 target).foldl (fun acc c => (dst_index c).foldl bump acc) []

/-- The `out` list of `candidates_for_hash` before sorting: prefiltered
positions refined by exact Hamming distance, in the order encountered. -/
def raw_candidates (target : List Nat) (dst_entries : List Entry)
    (pre : List Nat) (phash_max_dist : Nat) : List (Nat × Nat) :=
  pre.filterMap (fun i =>
    let d := hamming target (dst_entries.getD i default).phash_hex
    if d ≤ phash_max_dist then some (i, d) else none)

/-- Stable insertion of a candidate by ascending distance: it is placed
before the first element of (currently) greater-or-equal distance would be
wrong for stability, so it walks past strictly smaller distances only when
they come first, i.e. past every element of strictly smaller distance and
stops before the first element of greater-or-equal distance. -/
def insertByDist (x : Nat × Nat) : List (Nat × Nat) → List (Nat × Nat)
  | [] => [x]
  | y :: ys => if y.2 < x.2 then y :: insertByDist x ys else x :: y :: ys

/-- Stable sort by ascending distance, the model of
`out.sort(key=lambda x: x[1])` (Python's sort is stable; a stable sort by a
key is extensionally unique, and `sortByDist` is proved sorted and stable
below). -/
def sortByDist : List (Nat × Nat) → List (Nat × Nat)
  | [] => []
  | x :: xs => insertByDist x (sortByDist xs)

/-- The `pre` list of `candidates_for_hash`: entry positions whose
accumulated chunk count reaches `min_shared_chunks`, in the order the
counter first encountered them. -/
def prefilteredPositions (target : List Nat) (dst_index : List Nat → List Nat)
    (min_shared_chunks : Nat) : List Nat :=
  ((chunk_counts target dst_index).filter
    (fun ik => min_shared_chunks ≤ ik.2)).map Prod.fst

/-- `candidates_for_hash`: count shared chunks through the inverted index,
prefilter by `min_shared_chunks`, refine by exact Hamming distance
`≤ phash_max_dist`, sort ascending by distance, truncate to
`max_candidates`. -/
def candidates_for_hash (target_hash : List Nat) (dst_entries : List Entry)
    (dst_index : List Nat → List Nat)
    (phash_max_dist min_shared_chunks max_candidates : Nat) : List (Nat × Nat) :=
  let pre := prefilteredPositions target_hash dst_index min_shared_chunks
  if pre.isEmpty then []
  else (sortByDist (raw_candidates target_hash dst_entries pre phash_max_dist)).take
    max_candidates

/-- One OpenCV `DMatch` as used by `orb_score`: descriptor indices into the
two keypoint lists.  The float `distance` field is not embedded; the ratio
test that reads it is abstracted by the `ratioPass` oracle. -/
structure DMatch where
  queryIdx : Nat
  trainIdx : Nat
deriving DecidableEq, Inhabited

/-- The OpenCV oracles used by `orb_score`.  `Gray`, `KP`, `Desc`, `Pt` are
the types of grayscale rasters, keypoints, descriptors and 2-D points;
`detect` is `ORB_create(nfeatures).detectAndCompute` (keypoints plus an
optional descriptor array — `None` is `none`), `knnMatch` is
`BFMatcher.knnMatch` at the given `k`, `ratioPass m n` is the float test
`m.distance < 0.75 * n.distance`, and `findHomography` is
`cv2.findHomography(..., RANSAC, 5.0)` returning the inlier mask (one flag
per input correspondence) or `None`. -/
structure OrbEnv (Gray KP Desc Pt : Type) where
  detect : Gray → Nat → List KP × Option (List Desc)
  kpPt : KP → Pt
  knnMatch : List Desc → List Desc → Nat → List (List DMatch)
  ratioPass : DMatch → DMatch → Bool
  findHomography : List (Pt × Pt) → Option (List Bool)

variable {Img Gray KP Desc Pt : Type}

/-- `orb_score(grayA, grayB, nfeatures)`: detect keypoints/descriptors,
bail out to `(0, 0)` on missing descriptors or fewer than 10 keypoints,
apply the ratio test to the 2-NN matches, return `(len(good), 0)` when
fewer than 10 matches survive, otherwise fit a homography over the matched
points and count inliers from the mask (`0` when the fit returns no mask). -/
def orb_score [Inhabited KP] (env : OrbEnv Gray KP Desc Pt)
    (grayA grayB : Gray) (nfeatures : Nat) : Nat × Nat :=
  let (kpa, desa?) := env.detect grayA nfeatures
  let (kpb, desb?) := env.detect grayB nfeatures
  match desa?, desb? with
  | some desa, some desb =>
    if kpa.length < 10 ∨ kpb.length < 10 then (0, 0)
    else
      let knn := env.knnMatch desa desb 2
      let good := knn.filterMap (fun mn =>
        match mn with
        | [m, n] => if env.ratioPass m n then some m else none
        | _ => none)
      if good.length < 10 then (good.length, 0)
      else
        let pts := good.map (fun m =>
          (env.kpPt (kpa.getD m.queryIdx default), env.kpPt (kpb.getD m.trainIdx default)))
        let inliers := match env.findHomography pts with
          | some mask => mask.count true
          | none => 0
        (good.length, inliers)
  | _, _ => (0, 0)

/-- The decoding oracles of the script: `loadImage path max_side` is
`load_image` (with `none` for every decode failure — the function never
raises past its boundary), `phashOf` is `phash_hex` (the 16 hex digits of
`imagehash.phash`), `toGray img max_side` is `to_gray`. -/
structure ImgEnv (Img Gray : Type) where
  loadImage : String → Nat → Option Img
  phashOf : Img → List Nat
  toGray : Img → Nat → Gray

/-- The configurable parameters of the CLI (all the options `best_match`
and `update_index` consume). -/
structure Config where
  max_side : Nat
  phash_max_dist : Nat
  min_shared_chunks : Nat
  max_candidates : Nat
  orb_nfeatures : Nat
  orb_min_matches : Nat
  orb_min_inliers : Nat
deriving DecidableEq, Inhabited

/-- The dict `best_match` returns for an accepted destination. -/
structure MatchInfo where
  dstPath : String
  dstExt : String
  phashDist : Nat
  orbGoodMatches : Nat
  orbInliers : Nat
deriving DecidableEq, Inhabited

/-- The running `best_key` of `best_match`: `(inliers, good, -dist)` as a
Python tuple of ints, compared lexicographically. -/
abbrev Key := Int × Int × Int

/-- Python's lexicographic `<` on the 3-tuples used as `best_key`. -/
def keyLT (a b : Key) : Bool :=
  decide (a.1 < b.1) ||
    (a.1 == b.1 && (decide (a.2.1 < b.2.1) ||
      (a.2.1 == b.2.1 && decide (a.2.2 < b.2.2))))

/-- The initial `best_key = (-1, -1, 999)`. -/
def initKey : Key := (-1, -1, 999)

/-- The key a confirmed candidate record contributes. -/
def keyOfInfo (m : MatchInfo) : Key :=
  ((m.orbInliers : Int), (m.orbGoodMatches : Int), -(m.phashDist : Int))

/-- The `dst_cache` dict of one directional pass: entry position ↦ decoded
image, as an insertion-ordered association list. -/
abbrev Cache (Img : Type) := List (Nat × Img)

/-- Lookup in the `dst_cache`. -/
def cacheGet (cache : Cache Img) (i : Nat) : Option Img :=
  (cache.find? (fun p => p.1 == i)).map Prod.snd

/-- Body of the candidate loop of `best_match` for one candidate `(idx,
dist)`: fetch the destination image from the cache or decode it (skipping
the candidate when decoding fails), score it with `orb_score`, and replace
the running best when both ORB thresholds pass and the candidate's key
beats `best_key`. -/
def bmStep [Inhabited KP] (envI : ImgEnv Img Gray) (envO : OrbEnv Gray KP Desc Pt)
    (cfg : Config) (dst_entries : List Entry) (srcGray : Gray)
    (st : Option MatchInfo × Key × Cache Img) (c : Nat × Nat) :
    Option MatchInfo × Key × Cache Img :=
  let (best, bkey, cache) := st
  let de := dst_entries.getD c.1 default
  let fetched : Option (Img × Cache Img) :=
    match cacheGet cache c.1 with
    | some im => some (im, cache)
    | none =>
      match envI.loadImage de.path cfg.max_side with
      | none => none
      | some im => some (im, cache ++ [(c.1, im)])
  match fetched with
  | none => (best, bkey, cache)
  | some (im, cache') =>
    let gi := orb_score envO srcGray (envI.toGray im cfg.max_side) cfg.orb_nfeatures
    if cfg.orb_min_matches ≤ gi.1 ∧ cfg.orb_min_inliers ≤ gi.2 then
      let key : Key := ((gi.2 : Int), (gi.1 : Int), -((c.2 : Nat) : Int))
      if keyLT bkey key then
        (some ⟨de.path, de.ext, c.2, gi.1, gi.2⟩, key, cache')
      else (best, bkey, cache')
    else (best, bkey, cache')

/-- `best_match(src_entry, ...)`: decode the source (returning `None` and
an unchanged cache on failure), hash it fresh, retrieve candidates, return
`None` when there are none, otherwise run the candidate loop and return the
best confirmed candidate together with the updated `dst_cache`. -/
def best_match [Inhabited KP] (envI : ImgEnv Img Gray) (envO : OrbEnv Gray KP Desc Pt)
    (cfg : Config) (cache : Cache Img) (src_entry : Entry)
    (dst_entries : List Entry) (dst_index : List Nat → List Nat) :
    Option MatchInfo × Cache Img :=
  match envI.loadImage src_entry.path cfg.max_side with
  | none => (none, cache)
  | some srcImg =>
    let th := envI.phashOf srcImg
    let cand := candidates_for_hash th dst_entries dst_index
      cfg.phash_max_dist cfg.min_shared_chunks cfg.max_candidates
    if cand.isEmpty then (none, cache)
    else
      let srcGray := envI.toGray srcImg cfg.max_side
      let st := cand.foldl (bmStep envI envO cfg dst_entries srcGray)
        (none, initKey, cache)
      (st.1, st.2.2)

/-- One `ConfirmedMatch` emitted by `match_direction` (source fields merged
with the `best_match` record). -/
structure ConfirmedMatch where
  srcPath : String
  srcExt : String
  dstPath : String
  dstExt : String
  phashDist : Nat
  orbGoodMatches : Nat
  orbInliers : Nat
deriving DecidableEq, Inhabited

/-- The loop of `match_direction`, threading the shared `dst_cache` across
source entries and splitting them into matches and unmatched paths. -/
def matchFold [Inhabited KP] (envI : ImgEnv Img Gray) (envO : OrbEnv Gray KP Desc Pt)
    (cfg : Config) (dst_entries : List Entry) (dst_index : List Nat → List Nat) :
    List Entry → Cache Img → List ConfirmedMatch × List String
  | [], _ => ([], [])
  | e :: rest, cache =>
    let r := best_match envI envO cfg cache e dst_entries dst_index
    let rec' := matchFold envI envO cfg dst_entries dst_index rest r.2
    match r.1 with
    | none => (rec'.1, e.path :: rec'.2)
    | some m =>
      (⟨e.path, e.ext, m.dstPath, m.dstExt, m.phashDist, m.orbGoodMatches,
        m.orbInliers⟩ :: rec'.1, rec'.2)

/-- `match_direction(src_entries, dst_entries, dst_index, ...)`: run the
per-source loop with an initially empty destination cache, returning the
accepted matches and that direction's delta list. -/
def match_direction [Inhabited KP] (envI : ImgEnv Img Gray)
    (envO : OrbEnv Gray KP Desc Pt) (cfg : Config)
    (src_entries dst_entries : List Entry) (dst_index : List Nat → List Nat) :
    List ConfirmedMatch × List String :=
  matchFold envI envO cfg dst_entries dst_index src_entries []

/-- One row of the SQLite `images` table: `path` is the primary key,
`mtime`/`size` the stored file signature.  `mtime` (a float in the code) is
embedded as an abstract token compared only for equality. -/
structure Row where
  path : String
  ext : String
  phash : List Nat
  mtime : Nat
  size : Nat
deriving DecidableEq, Inhabited

/-- One file discovered by the `rglob` scan of `update_index`, with its
`file_sig`.  The scan yields each path at most once. -/
structure DiskFile where
  path : String
  ext : String
  mtime : Nat
  size : Nat
deriving DecidableEq, Inhabited

/-- The stored signature for a path (`db_sig.get(path)`). -/
def sigLookup (db : List Row) (p : String) : Option (Nat × Nat) :=
  (db.find? (fun r => r.path == p)).map (fun r => (r.mtime, r.size))

/-- The stored row for a path. -/
def rowLookup (db : List Row) (p : String) : Option Row :=
  db.find? (fun r => r.path == p)

/-- SQLite `INSERT ... ON CONFLICT(path) DO UPDATE`: replace the row with
the same path in place, or append a fresh row. -/
def upsertRow (db : List Row) (r : Row) : List Row :=
  if db.any (fun r0 => r0.path == r.path) then
    db.map (fun r0 => if r0.path == r.path then r else r0)
  else db ++ [r]

/-- `load_image` followed by `phash_hex` on success, as `update_index`
performs per reprocessed file. -/
def loadHash (envI : ImgEnv Img Gray) (max_side : Nat) (p : String) : Option (List Nat) :=
  (envI.loadImage p max_side).map envI.phashOf

/-- The reprocessing loop of `update_index` over `to_proc`: decode each
file (skipping it silently when decoding fails), hash it and upsert the
row.  Returns the new table and the number of upserts performed. -/
def processFiles (envI : ImgEnv Img Gray) (max_side : Nat) :
    List DiskFile → List Row → List Row × Nat
  | [], db => (db, 0)
  | f :: rest, db =>
    match loadHash envI max_side f.path with
    | none => processFiles envI max_side rest db
    | some h =>
      let r := processFiles envI max_side rest
        (upsertRow db ⟨f.path, f.ext, h, f.mtime, f.size⟩)
      (r.1, r.2 + 1)

/-- `update_index(conn, root_dir, ...)` given the scan result `disk`:
delete stale rows (paths no longer on disk), reprocess every new or
changed-signature file, leave the rest untouched.  Returns the new table,
the number of upserts and the number of deletions. -/
def update_index (envI : ImgEnv Img Gray) (max_side : Nat)
    (disk : List DiskFile) (db : List Row) : List Row × Nat × Nat :=
  let stale := db.filter (fun r => ¬ disk.any (fun f => f.path == r.path))
  let db1 := db.filter (fun r => disk.any (fun f => f.path == r.path))
  let to_proc := disk.filter (fun f => sigLookup db f.path ≠ some (f.mtime, f.size))
  let r := processFiles envI max_side to_proc db1
  (r.1, r.2, stale.length)

/-- `load_entries(conn)`: project the stored rows to `Entry` values. -/
def load_entries (db : List Row) : List Entry :=
  db.map (fun r => ⟨r.path, r.ext, r.phash⟩)

/-- The per-direction counters of `summary.json` that depend on the run
(timestamp and literal paths are outside the model). -/
structure Summary where
  indexedA : Nat
  indexedB : Nat
  matchesAtoB : Nat
  matchesBtoA : Nat
  aMinusB : Nat
  bMinusA : Nat
  params : Config
deriving DecidableEq, Inhabited

/-- The payloads of the four output files (`matches.json`,
`a_minus_b.json`, `b_minus_a.json`, `summary.json`).  A `RunOutputs` value
exists exactly when `main` reaches its write phase. -/
structure RunOutputs where
  matches_a_to_b : List ConfirmedMatch
  matches_b_to_a : List ConfirmedMatch
  a_minus_b : List String
  b_minus_a : List String
  summary : Summary
deriving DecidableEq, Inhabited

/-- The `main` pipeline after CLI parsing, given the two scan results and
the two persisted tables: reconcile both indexes (those updates persist in
every case, modelled by the first component), abort with `SystemExit` and
its message when either set indexed zero files, otherwise run both
directional passes and produce the four output payloads. -/
def mainRun [Inhabited KP] (envI : ImgEnv Img Gray) (envO : OrbEnv Gray KP Desc Pt)
    (cfg : Config) (diskA diskB : List DiskFile) (dbA dbB : List Row) :
    (List Row × List Row) × Except String RunOutputs :=
  let ra := update_index envI cfg.max_side diskA dbA
  let entries_a := load_entries ra.1
  let rb := update_index envI cfg.max_side diskB dbB
  let entries_b := load_entries rb.1
  ((ra.1, rb.1),
    if entries_a.isEmpty then
      Except.error "Set A indexed 0 files. Check extensions and path."
    else if entries_b.isEmpty then
      Except.error "Set B indexed 0 files. Check extensions and path."
    else
      let idx_a := build_chunk_index entries_a
      let idx_b := build_chunk_index entries_b
      let mab := match_direction envI envO cfg entries_a entries_b idx_b
      let mba := match_direction envI envO cfg entries_b entries_a idx_a
      Except.ok
        { matches_a_to_b := mab.1
          matches_b_to_a := mba.1
          a_minus_b := mab.2
          b_minus_a := mba.2
          summary :=
            { indexedA := entries_a.length
              indexedB := entries_b.length
              matchesAtoB := mab.1.length
              matchesBtoA := mba.1.length
              aMinusB := mab.2.length
              bMinusA := mba.2.length
              params := cfg } })

/-- Keys of an association list. -/
def keysOf (l : List (Nat × Nat)) : List Nat := l.map Prod.fst

/-- Cache-free rendition of the candidate-loop body of `best_match`: the
image evaluated for a candidate is exactly what `load_image` yields for its
path.  Because the per-pass cache only ever stores images that
`load_image` produced for the same entry position (see `CacheOK` below),
the cached loop computes the same best as this one. -/
def bmStepPure [Inhabited KP] (envI : ImgEnv Img Gray) (envO : OrbEnv Gray KP Desc Pt)
    (cfg : Config) (dst_entries : List Entry) (srcGray : Gray)
    (st : Option MatchInfo × Key) (c : Nat × Nat) : Option MatchInfo × Key :=
  let de := dst_entries.getD c.1 default
  match envI.loadImage de.path cfg.max_side with
  | none => st
  | some im =>
    let gi := orb_score envO srcGray (envI.toGray im cfg.max_side) cfg.orb_nfeatures
    if cfg.orb_min_matches ≤ gi.1 ∧ cfg.orb_min_inliers ≤ gi.2 then
      let key : Key := ((gi.2 : Int), (gi.1 : Int), -((c.2 : Nat) : Int))
      if keyLT st.2 key then (some ⟨de.path, de.ext, c.2, gi.1, gi.2⟩, key)
      else st
    else st

/-- Cache-free `best_match`; depends on the source entry only through its
path. -/
def best_match_pure [Inhabited KP] (envI : ImgEnv Img Gray)
    (envO : OrbEnv Gray KP Desc Pt) (cfg : Config) (src_path : String)
    (dst_entries : List Entry) (dst_index : List Nat → List Nat) :
    Option MatchInfo :=
  match envI.loadImage src_path cfg.max_side with
  | none => none
  | some srcImg =>
    let cand := candidates_for_hash (envI.phashOf srcImg) dst_entries dst_index
      cfg.phash_max_dist cfg.min_shared_chunks cfg.max_candidates
    if cand.isEmpty then none
    else
      (cand.foldl (bmStepPure envI envO cfg dst_entries
        (envI.toGray srcImg cfg.max_side)) (none, initKey)).1

/-- Coherence of the per-pass `dst_cache`: every cached image is what
`load_image` yields for the corresponding destination entry's path.  The
empty cache is coherent and `best_match` preserves coherence. -/
def CacheOK (envI : ImgEnv Img Gray) (cfg : Config) (dst_entries : List Entry)
    (cache : Cache Img) : Prop :=
  ∀ p ∈ cache,
    envI.loadImage (dst_entries.getD p.1 default).path cfg.max_side = some p.2

/-- The confirmed candidates of one `best_match` call: those retrieved
candidates whose destination image decodes and whose ORB score passes both
thresholds, with the record `best_match` would build for them. -/
def confirmed_candidates [Inhabited KP] (envI : ImgEnv Img Gray)
    (envO : OrbEnv Gray KP Desc Pt) (cfg : Config) (srcGray : Gray)
    (dst_entries : List Entry) (cand : List (Nat × Nat)) : List MatchInfo :=
  cand.filterMap (fun c =>
    match envI.loadImage (dst_entries.getD c.1 default).path cfg.max_side with
    | none => none
    | some im =>
      let gi := orb_score envO srcGray (envI.toGray im cfg.max_side) cfg.orb_nfeatures
      if cfg.orb_min_matches ≤ gi.1 ∧ cfg.orb_min_inliers ≤ gi.2 then
        some ⟨(dst_entries.getD c.1 default).path, (dst_entries.getD c.1 default).ext,
          c.2, gi.1, gi.2⟩
      else none)

/-! ### Concrete instances used by counterexamples and witnesses -/

/-- A decode environment in which every path decodes to the image `0` and
every image hashes to the all-zero fingerprint. -/
def imgEnvZero : ImgEnv Nat Nat :=
  ⟨fun _ _ => some 0, fun _ => List.replicate 16 0, fun i _ => i⟩

/-- A decode environment in which every decode fails. -/
def imgEnvNone : ImgEnv Nat Nat :=
  ⟨fun _ _ => none, fun _ => List.replicate 16 0, fun i _ => i⟩

/-- An OpenCV environment that always detects ten keypoints/descriptors,
matches them pairwise through the ratio test and reports every
correspondence as an inlier, so `orb_score` returns `(10, 10)`. -/
def orbEnvRich : OrbEnv Nat Nat Nat Nat :=
  ⟨fun _ _ => (List.replicate 10 0, some (List.replicate 10 0)),
   fun k => k,
   fun _ _ _ => List.replicate 10 [⟨0, 0⟩, ⟨0, 0⟩],
   fun _ _ => true,
   fun pts => some (List.replicate pts.length true)⟩

/-- The CLI defaults with the two ORB thresholds lowered to 10, the value
`orbEnvRich` attains. -/
def cfgWitness : Config := ⟨900, 10, 2, 30, 1500, 10, 10⟩

/-- Invariant of the candidate loop of `best_match`, relating the running
`(best, best_key)` state to the confirmed candidates seen so far: an empty
best means nothing was confirmed yet, a non-empty best is a confirmed
candidate holding the current `best_key`, and `best_key` is never beaten
by a seen confirmed candidate. -/
def BMInv (st : Option MatchInfo × Key) (confirmed : List MatchInfo) : Prop :=
  (st.1 = none → confirmed = [] ∧ st.2 = initKey) ∧
  (∀ m, st.1 = some m → m ∈ confirmed ∧ st.2 = keyOfInfo m) ∧
  (∀ m' ∈ confirmed, keyLT st.2 (keyOfInfo m') = false)

/-- The all-zero 64-bit fingerprint (16 zero hex digits). -/
def hashZero : List Nat := List.replicate 16 0

/-- A fingerprint agreeing with `hashZero` on its first chunk only; the
other chunks differ but keep the Hamming distance small (4 bits). -/
def hashMixed : List Nat := [0, 0, 0, 0, 0, 0, 0, 1, 0, 0, 0, 2, 0, 0, 0, 3]

def entryA0 : Entry := ⟨"a", "jpg", hashZero⟩

def entryB0 : Entry := ⟨"b", "jpg", hashZero⟩

def dstMixed : List Entry := [⟨"b", "jpg", hashMixed⟩]

/-- A fingerprint within Hamming distance 4 of `hashZero` that has no
chunk value in common with it (each chunk flips a different bit). -/
def hashDisjoint : List Nat := [0, 0, 0, 1, 0, 0, 1, 0, 0, 1, 0, 0, 1, 0, 0, 0]

def dstDisjoint : List Entry := [⟨"b", "jpg", hashDisjoint⟩]

/-- The candidates the all-zero query retrieves against `[entryB0]` under
the witness configuration. -/
def candW : List (Nat × Nat) :=
  candidates_for_hash hashZero [entryB0] (build_chunk_index [entryB0]) 10 2 30

/-- The corresponding confirmed candidates under the rich OpenCV
environment. -/
def confirmedW : List MatchInfo :=
  confirmed_candidates imgEnvZero orbEnvRich cfgWitness 0 [entryB0] candW

/-- A decode environment in which exactly one path decodes. -/
def imgEnvPartial : ImgEnv Nat Nat :=
  ⟨fun p _ => if p == "good.jpg" then some 0 else none,
   fun _ => List.replicate 16 0, fun i _ => i⟩

/-- A two-file scan result: one decodable file and one broken file. -/
def diskW : List DiskFile :=
  [⟨"good.jpg", ".jpg", 5, 100⟩, ⟨"bad.jpg", ".jpg", 6, 200⟩]

/-! ### Lemmas about the stable sort -/

theorem insertByDist_perm (x : Nat × Nat) (l : List (Nat × Nat)) :
    (insertByDist x l).Perm (x :: l) := by
  induction l with
  | nil => exact List.Perm.refl _
  | cons y ys ih =>
    by_cases h : y.2 < x.2
    · simp only [insertByDist, if_pos h]
      exact (ih.cons y).trans (List.Perm.swap x y ys)
    · simp only [insertByDist, if_neg h]
      exact List.Perm.refl _

theorem sortByDist_perm (l : List (Nat × Nat)) : (sortByDist l).Perm l := by
  induction l with
  | nil => exact List.Perm.refl _
  | cons x xs ih => exact (insertByDist_perm x (sortByDist xs)).trans (ih.cons x)

theorem mem_sortByDist {y : Nat × Nat} {l : List (Nat × Nat)} :
    y ∈ sortByDist l ↔ y ∈ l :=
  (sortByDist_perm l).mem_iff

theorem length_sortByDist (l : List (Nat × Nat)) :
    (sortByDist l).length = l.length :=
  (sortByDist_perm l).length_eq

theorem pairwise_insertByDist (x : Nat × Nat) {l : List (Nat × Nat)}
    (h : l.Pairwise (fun a b : Nat × Nat => a.2 ≤ b.2)) :
    (insertByDist x l).Pairwise (fun a b : Nat × Nat => a.2 ≤ b.2) := by
  induction l with
  | nil => simp [insertByDist]
  | cons y ys ih =>
    rcases List.pairwise_cons.mp h with ⟨hy, hys⟩
    by_cases hlt : y.2 < x.2
    · simp only [insertByDist, if_pos hlt]
      refine List.pairwise_cons.mpr ⟨?_, ih hys⟩
      intro z hz
      rcases List.mem_cons.mp ((insertByDist_perm x ys).mem_iff.mp hz) with hzx | hzys
      · exact hzx ▸ Nat.le_of_lt hlt
      · exact hy z hzys
    · simp only [insertByDist, if_neg hlt]
      refine List.pairwise_cons.mpr ⟨?_, h⟩
      intro z hz
      rcases List.mem_cons.mp hz with hzy | hzys
      · exact hzy ▸ Nat.le_of_not_lt hlt
      · exact Nat.le_trans (Nat.le_of_not_lt hlt) (hy z hzys)

theorem sortByDist_sorted (l : List (Nat × Nat)) :
    (sortByDist l).Pairwise (fun a b : Nat × Nat => a.2 ≤ b.2) := by
  induction l with
  | nil => simp [sortByDist]
  | cons x xs ih => exact pairwise_insertByDist x ih

theorem filter_insertByDist (x : Nat × Nat) (l : List (Nat × Nat)) (d : Nat) :
    (insertByDist x l).filter (fun y => y.2 == d) =
      (if x.2 = d then [x] else []) ++ l.filter (fun y => y.2 == d) := by
  induction l with
  | nil =>
    by_cases h : x.2 = d
    · simp [insertByDist, List.filter_cons, h]
    · simp [insertByDist, List.filter_cons, h, beq_false_of_ne h]
  | cons y ys ih =>
    by_cases hlt : y.2 < x.2
    · have hyne : ¬ (x.2 = d ∧ y.2 = d) := by omega
      simp only [insertByDist, if_pos hlt, List.filter_cons, ih]
      by_cases hx : x.2 = d
      · have : ¬ y.2 = d := fun hyd => hyne ⟨hx, hyd⟩
        simp [hx, this]
      · by_cases hy : y.2 = d <;> simp [hx, hy]
    · simp only [insertByDist, if_neg hlt, List.filter_cons]
      by_cases hx : x.2 = d <;> simp [hx]

theorem filter_sortByDist (l : List (Nat × Nat)) (d : Nat) :
    (sortByDist l).filter (fun y => y.2 == d) = l.filter (fun y => y.2 == d) := by
  induction l with
  | nil => rfl
  | cons x xs ih =>
    simp only [sortByDist, filter_insertByDist, ih, List.filter_cons]
    by_cases hx : x.2 = d <;> simp [hx]

/-! ### Lemmas about the chunk counter -/

@[simp] theorem valueAt_nil (i : Nat) : valueAt [] i = 0 := rfl

theorem valueAt_cons (j k : Nat) (rest : List (Nat × Nat)) (i : Nat) :
    valueAt ((j, k) :: rest) i = if j = i then k else valueAt rest i := by
  by_cases h : j = i
  · rw [valueAt, List.find?_cons_of_pos _ (by simpa using h), if_pos h]
  · rw [valueAt, List.find?_cons_of_neg _ (by simpa using h), if_neg h]
    rfl

theorem bump_cons (j k : Nat) (rest : List (Nat × Nat)) (i : Nat) :
    bump ((j, k) :: rest) i
      = if j = i then (j, k + 1) :: rest else (j, k) :: bump rest i := rfl

theorem valueAt_bump_self (l : List (Nat × Nat)) (i : Nat) :
    valueAt (bump l i) i = valueAt l i + 1 := by
  induction l with
  | nil =>
    rw [show bump [] i = [(i, 1)] from rfl, valueAt_cons, if_pos rfl, valueAt_nil]
  | cons jk rest ih =>
    rcases jk with ⟨j, k⟩
    by_cases h : j = i
    · rw [bump_cons, if_pos h, valueAt_cons, valueAt_cons, if_pos h, if_pos h]
    · rw [bump_cons, if_neg h, valueAt_cons, valueAt_cons, if_neg h, if_neg h, ih]

theorem valueAt_bump_ne (l : List (Nat × Nat)) {i j : Nat} (h : j ≠ i) :
    valueAt (bump l i) j = valueAt l j := by
  induction l with
  | nil =>
    rw [show bump [] i = [(i, 1)] from rfl, valueAt_cons, if_neg (Ne.symm h),
      valueAt_nil]
  | cons jk rest ih =>
    rcases jk with ⟨j', k⟩
    by_cases h' : j' = i
    · have hj : j' ≠ j := by rw [h']; exact Ne.symm h
      rw [bump_cons, if_pos h', valueAt_cons, valueAt_cons, if_neg hj, if_neg hj]
    · by_cases h2 : j' = j
      · rw [bump_cons, if_neg h', valueAt_cons, valueAt_cons, if_pos h2, if_pos h2]
      · rw [bump_cons, if_neg h', valueAt_cons, valueAt_cons, if_neg h2, if_neg h2,
          ih]

theorem valueAt_foldl_bump (L : List Nat) (acc : List (Nat × Nat)) (j : Nat) :
    valueAt (L.foldl bump acc) j = valueAt acc j + L.count j := by
  induction L generalizing acc with
  | nil => simp
  | cons a L ih =>
    rw [List.foldl_cons, ih, List.count_cons]
    by_cases h : a = j
    · subst h
      rw [valueAt_bump_self]
      simp
      omega
    · rw [valueAt_bump_ne acc (Ne.symm h)]
      simp [beq_false_of_ne (Ne.symm h)]
      exact h

theorem valueAt_chunk_counts_aux (cs : List (List Nat))
    (idx : List Nat → List Nat) (acc : List (Nat × Nat)) (j : Nat) :
    valueAt (cs.foldl (fun acc c => (idx c).foldl bump acc) acc) j
      = valueAt acc j + (cs.map (fun c => (idx c).count j)).sum := by
  induction cs generalizing acc with
  | nil => simp
  | cons c cs ih =>
    rw [List.foldl_cons, ih, valueAt_foldl_bump]
    simp [Nat.add_assoc]

theorem valueAt_chunk_counts (target : List Nat) (idx : List Nat → List Nat)
    (j : Nat) :
    valueAt (chunk_counts target idx) j
      = ((chunksOf4 target).map (fun c => (idx c).count j)).sum := by
  rw [chunk_counts, valueAt_chunk_counts_aux]
  simp

/-! ### Lemmas about the inverted chunk index -/

theorem filterMap_if_eq (chunks : List (List Nat)) (c : List Nat) (i : Nat) :
    chunks.filterMap (fun c' => if c' = c then some i else none)
      = List.replicate (chunks.count c) i := by
  induction chunks with
  | nil => simp
  | cons c0 cs ih =>
    by_cases h : c0 = c
    · simp [List.filterMap_cons, h, List.count_cons, ih, List.replicate_succ]
    · simp [List.filterMap_cons, h, List.count_cons, ih, beq_false_of_ne h]

theorem mem_chunkIndexFrom {entries : List Entry} {i0 : Nat} {c : List Nat}
    {j : Nat} (h : j ∈ chunkIndexFrom entries i0 c) :
    i0 ≤ j ∧ j < i0 + entries.length := by
  induction entries generalizing i0 with
  | nil => simp [chunkIndexFrom] at h
  | cons e rest ih =>
    rw [chunkIndexFrom, filterMap_if_eq] at h
    rcases List.mem_append.mp h with h1 | h2
    · have := List.eq_of_mem_replicate h1
      subst this
      simp only [List.length_cons]
      omega
    · have := ih h2
      simp only [List.length_cons]
      omega

theorem count_chunkIndexFrom (entries : List Entry) (i0 : Nat) (c : List Nat)
    (k : Nat) (hk : k < entries.length) :
    (chunkIndexFrom entries i0 c).count (i0 + k)
      = (chunksOf4 (entries.getD k default).phash_hex).count c := by
  induction entries generalizing i0 k with
  | nil => simp at hk
  | cons e rest ih =>
    rw [chunkIndexFrom, filterMap_if_eq, List.count_append]
    cases k with
    | zero =>
      have hz : (chunkIndexFrom rest (i0 + 1) c).count (i0 + 0) = 0 := by
        rw [List.count_eq_zero]
        intro hmem
        have := mem_chunkIndexFrom hmem
        omega
      rw [hz, List.count_replicate]
      simp
    | succ k' =>
      have hrep : (List.replicate ((chunksOf4 e.phash_hex).count c) i0).count
          (i0 + (k' + 1)) = 0 := by
        rw [List.count_replicate]
        have : ¬ (i0 + (k' + 1) = i0) := by omega
        simp [this]
      rw [hrep]
      have hk' : k' < rest.length := by
        simp only [List.length_cons] at hk
        omega
      have := ih (i0 + 1) k' hk'
      rw [show i0 + (k' + 1) = i0 + 1 + k' by omega, this]
      simp [List.getD_cons_succ]

theorem count_build_chunk_index (entries : List Entry) (c : List Nat) (k : Nat)
    (hk : k < entries.length) :
    (build_chunk_index entries c).count k
      = (chunksOf4 (entries.getD k default).phash_hex).count c := by
  have := count_chunkIndexFrom entries 0 c k hk
  simpa [build_chunk_index] using this

theorem mem_build_chunk_index {entries : List Entry} {c : List Nat} {j : Nat}
    (h : j ∈ build_chunk_index entries c) : j < entries.length := by
  have h' : j ∈ chunkIndexFrom entries 0 c := h
  have := mem_chunkIndexFrom h'
  omega

/-- The per-entry count accumulated by `candidates_for_hash` through the
chunk inverted index is exactly `pairCount`. -/
theorem valueAt_counts_eq_pairCount (entries : List Entry) (target : List Nat)
    (k : Nat) (hk : k < entries.length) :
    valueAt (chunk_counts target (build_chunk_index entries)) k
      = pairCount target (entries.getD k default).phash_hex := by
  rw [valueAt_chunk_counts, pairCount]
  congr 1
  apply List.map_congr_left
  intro c _
  exact count_build_chunk_index entries c k hk

/-! ### Keys of the counter: nodup, bounds, membership -/

theorem keysOf_bump (l : List (Nat × Nat)) (i : Nat) :
    keysOf (bump l i) = if i ∈ keysOf l then keysOf l else keysOf l ++ [i] := by
  induction l with
  | nil => simp [bump, keysOf]
  | cons jk rest ih =>
    rcases jk with ⟨j, k⟩
    by_cases h : j = i
    · rw [bump_cons, if_pos h]
      have : i ∈ keysOf ((j, k) :: rest) := by simp [keysOf, h]
      rw [if_pos this]
      simp [keysOf, h]
    · rw [bump_cons, if_neg h]
      by_cases hm : i ∈ keysOf rest
      · have : i ∈ keysOf ((j, k) :: rest) := by simp [keysOf] at hm ⊢; exact Or.inr hm
        rw [if_pos this]
        simp only [keysOf, List.map_cons] at ih ⊢
        rw [ih, if_pos (by simpa [keysOf] using hm)]
      · have : ¬ i ∈ keysOf ((j, k) :: rest) := by
          simp [keysOf] at hm ⊢
          exact ⟨fun hji => h hji.symm, hm⟩
        rw [if_neg this]
        simp only [keysOf, List.map_cons] at ih ⊢
        rw [ih, if_neg (by simpa [keysOf] using hm)]
        simp

theorem nodup_keysOf_bump {l : List (Nat × Nat)} (i : Nat)
    (h : (keysOf l).Nodup) : (keysOf (bump l i)).Nodup := by
  rw [keysOf_bump]
  by_cases hm : i ∈ keysOf l
  · rw [if_pos hm]; exact h
  · rw [if_neg hm]
    exact List.Nodup.append h (List.nodup_singleton i)
      (by simpa [List.disjoint_singleton] using hm)

theorem mem_keysOf_bump {l : List (Nat × Nat)} {i j : Nat}
    (h : j ∈ keysOf (bump l i)) : j ∈ keysOf l ∨ j = i := by
  rw [keysOf_bump] at h
  by_cases hm : i ∈ keysOf l
  · rw [if_pos hm] at h; exact Or.inl h
  · rw [if_neg hm] at h
    rcases List.mem_append.mp h with h1 | h2
    · exact Or.inl h1
    · simp at h2; exact Or.inr h2

theorem nodup_keysOf_foldl_bump (L : List Nat) {acc : List (Nat × Nat)}
    (h : (keysOf acc).Nodup) : (keysOf (L.foldl bump acc)).Nodup := by
  induction L generalizing acc with
  | nil => exact h
  | cons a L ih => exact ih (nodup_keysOf_bump a h)

theorem mem_keysOf_foldl_bump {L : List Nat} {acc : List (Nat × Nat)} {j : Nat}
    (h : j ∈ keysOf (L.foldl bump acc)) : j ∈ keysOf acc ∨ j ∈ L := by
  induction L generalizing acc with
  | nil => exact Or.inl h
  | cons a L ih =>
    rcases ih h with h1 | h2
    · rcases mem_keysOf_bump h1 with h3 | h4
      · exact Or.inl h3
      · exact Or.inr (by simp [h4])
    · exact Or.inr (List.mem_cons_of_mem a h2)

theorem nodup_keysOf_chunks_fold (idx : List Nat → List Nat) :
    ∀ (cs : List (List Nat)) (acc : List (Nat × Nat)),
      (keysOf acc).Nodup →
      (keysOf (cs.foldl (fun acc c => (idx c).foldl bump acc) acc)).Nodup := by
  intro cs
  induction cs with
  | nil => intro acc h; exact h
  | cons c cs ih => intro acc h; exact ih _ (nodup_keysOf_foldl_bump _ h)

theorem nodup_keysOf_chunk_counts (target : List Nat)
    (idx : List Nat → List Nat) :
    (keysOf (chunk_counts target idx)).Nodup := by
  rw [chunk_counts]
  exact nodup_keysOf_chunks_fold idx _ [] (by simp [keysOf])

theorem mem_keysOf_chunks_fold {idx : List Nat → List Nat} {j : Nat} :
    ∀ (cs : List (List Nat)) (acc : List (Nat × Nat)),
      j ∈ keysOf (cs.foldl (fun acc c => (idx c).foldl bump acc) acc) →
      j ∈ keysOf acc ∨ ∃ c ∈ cs, j ∈ idx c := by
  intro cs
  induction cs with
  | nil => intro acc h; exact Or.inl h
  | cons c cs ih =>
    intro acc h
    rcases ih _ h with h1 | h2
    · rcases mem_keysOf_foldl_bump h1 with h3 | h4
      · exact Or.inl h3
      · exact Or.inr ⟨c, List.mem_cons_self c cs, h4⟩
    · rcases h2 with ⟨c', hc', hj⟩
      exact Or.inr ⟨c', List.mem_cons_of_mem c hc', hj⟩

theorem mem_keysOf_chunk_counts {target : List Nat} {idx : List Nat → List Nat}
    {j : Nat} (h : j ∈ keysOf (chunk_counts target idx)) :
    ∃ c ∈ chunksOf4 target, j ∈ idx c := by
  rw [chunk_counts] at h
  rcases mem_keysOf_chunks_fold _ [] h with h1 | h2
  · simp [keysOf] at h1
  · exact h2

theorem valueAt_pos_mem (l : List (Nat × Nat)) (i : Nat)
    (h : 0 < valueAt l i) : (i, valueAt l i) ∈ l := by
  induction l with
  | nil => simp at h
  | cons jk rest ih =>
    rcases jk with ⟨j, k⟩
    by_cases hj : j = i
    · subst hj
      rw [valueAt_cons, if_pos rfl]
      exact List.mem_cons_self _ _
    · rw [valueAt_cons, if_neg hj] at h ⊢
      exact List.mem_cons_of_mem _ (ih h)

theorem mem_valueAt {l : List (Nat × Nat)} (hn : (keysOf l).Nodup)
    {i k : Nat} (h : (i, k) ∈ l) : valueAt l i = k := by
  induction l with
  | nil => simp at h
  | cons jk rest ih =>
    rcases jk with ⟨j, k'⟩
    rw [keysOf, List.map_cons, List.nodup_cons] at hn
    rcases List.mem_cons.mp h with h1 | h2
    · injection h1 with hji hkk
      rw [valueAt_cons, if_pos hji.symm, hkk]
    · have hjne : j ≠ i := by
        intro hji
        subst hji
        exact hn.1 (List.mem_map.mpr ⟨(j, k), h2, rfl⟩)
      rw [valueAt_cons, if_neg hjne]
      exact ih hn.2 h2

/-! ### Relating positional chunk sharing to pair counts -/

theorem countP_zip_le_sum_count (l1 l2 : List (List Nat)) :
    (l1.zip l2).countP (fun p => decide (p.1 = p.2))
      ≤ (l1.map (fun c => l2.count c)).sum := by
  induction l1 generalizing l2 with
  | nil => simp
  | cons c cs ih =>
    cases l2 with
    | nil => simp
    | cons d ds =>
      rw [List.zip_cons_cons, List.countP_cons, List.map_cons, List.sum_cons]
      have h1 : (cs.zip ds).countP (fun p => decide (p.1 = p.2))
          ≤ (cs.map (fun c => ds.count c)).sum := ih ds
      have h2 : (cs.map (fun c => ds.count c)).sum
          ≤ (cs.map (fun c => (d :: ds).count c)).sum := by
        apply List.sum_le_sum
        intro c' _
        rw [List.count_cons]
        omega
      have h3 : (if (decide ((c, d).1 = (c, d).2)) = true then 1 else 0)
          ≤ (d :: ds).count c := by
        by_cases hcd : c = d
        · rw [List.count_cons]
          simp [hcd]
        · simp [hcd]
      omega

theorem sharedChunks_le_pairCount (t e : List Nat) :
    sharedChunks t e ≤ pairCount t e := by
  rw [sharedChunks, pairCount]
  exact countP_zip_le_sum_count _ _

theorem hamming_comm (a b : List Nat) : hamming a b = hamming b a := by
  induction a generalizing b with
  | nil => cases b <;> rfl
  | cons x xs ih =>
    cases b with
    | nil => rfl
    | cons y ys =>
      rw [hamming, hamming, Nat.xor_comm, ih]

theorem sharedChunks_comm (t e : List Nat) : sharedChunks t e = sharedChunks e t := by
  rw [sharedChunks, sharedChunks]
  generalize chunksOf4 t = l1
  generalize chunksOf4 e = l2
  induction l1 generalizing l2 with
  | nil => cases l2 <;> rfl
  | cons c cs ih =>
    cases l2 with
    | nil => rfl
    | cons d ds =>
      rw [List.zip_cons_cons, List.zip_cons_cons, List.countP_cons,
        List.countP_cons, ih ds]
      congr 1
      by_cases hcd : c = d
      · simp [hcd]
      · simp [hcd, Ne.symm hcd]

/-! ### Properties of candidate retrieval -/

theorem nodup_length_le_of_lt (l : List Nat) (N : Nat) (hn : l.Nodup)
    (hb : ∀ x ∈ l, x < N) : l.length ≤ N := by
  have hcard : l.toFinset.card = l.length := List.toFinset_card_of_nodup hn
  have hsub : l.toFinset ⊆ Finset.range N := by
    intro x hx
    exact Finset.mem_range.mpr (hb x (List.mem_toFinset.mp hx))
  have := Finset.card_le_card hsub
  rw [Finset.card_range, hcard] at this
  exact this

theorem chunk_counts_length_le (target : List Nat) (dst : List Entry) :
    (chunk_counts target (build_chunk_index dst)).length ≤ dst.length := by
  have hn := nodup_keysOf_chunk_counts target (build_chunk_index dst)
  have hb : ∀ x ∈ keysOf (chunk_counts target (build_chunk_index dst)),
      x < dst.length := by
    intro x hx
    rcases mem_keysOf_chunk_counts hx with ⟨c, _, hxc⟩
    exact mem_build_chunk_index hxc
  have := nodup_length_le_of_lt _ _ hn hb
  simpa [keysOf] using this

theorem mem_prefiltered_lt {target : List Nat} {dst : List Entry}
    {minc i : Nat}
    (h : i ∈ prefilteredPositions target (build_chunk_index dst) minc) :
    i < dst.length := by
  rcases List.mem_map.mp h with ⟨ik, hik, rfl⟩
  have hkey : ik.1 ∈ keysOf (chunk_counts target (build_chunk_index dst)) :=
    List.mem_map.mpr ⟨ik, (List.mem_filter.mp hik).1, rfl⟩
  rcases mem_keysOf_chunk_counts hkey with ⟨c, _, hc⟩
  exact mem_build_chunk_index hc

theorem mem_prefiltered_pairCount {target : List Nat} {dst : List Entry}
    {minc i : Nat}
    (h : i ∈ prefilteredPositions target (build_chunk_index dst) minc) :
    minc ≤ pairCount target (dst.getD i default).phash_hex := by
  rcases List.mem_map.mp h with ⟨ik, hik, rfl⟩
  rcases List.mem_filter.mp hik with ⟨hmem, hcond⟩
  have hlt : ik.1 < dst.length := mem_prefiltered_lt h
  have hval : valueAt (chunk_counts target (build_chunk_index dst)) ik.1 = ik.2 :=
    mem_valueAt (nodup_keysOf_chunk_counts _ _) (by simpa using hmem)
  rw [valueAt_counts_eq_pairCount dst target ik.1 hlt] at hval
  have : minc ≤ ik.2 := by simpa using hcond
  omega

theorem mem_prefiltered_of_pairCount {target : List Nat} {dst : List Entry}
    {minc i : Nat} (hi : i < dst.length) (hminc : 1 ≤ minc)
    (hshared : minc ≤ pairCount target (dst.getD i default).phash_hex) :
    i ∈ prefilteredPositions target (build_chunk_index dst) minc := by
  have hval : valueAt (chunk_counts target (build_chunk_index dst)) i
      = pairCount target (dst.getD i default).phash_hex :=
    valueAt_counts_eq_pairCount dst target i hi
  have hpos : 0 < valueAt (chunk_counts target (build_chunk_index dst)) i := by
    omega
  have hmem := valueAt_pos_mem _ i hpos
  refine List.mem_map.mpr ⟨(i, valueAt (chunk_counts target (build_chunk_index dst)) i),
    List.mem_filter.mpr ⟨hmem, ?_⟩, rfl⟩
  simp only [decide_eq_true_eq]
  omega

/-- Membership half of the candidate-index guarantee: an entry whose
pair count reaches `min_shared_chunks ≥ 1` and whose Hamming distance is
within bound is returned, provided `max_candidates` can hold every
destination entry. -/
theorem mem_candidates_of_close {dst : List Entry} {target : List Nat}
    {i maxd minc maxc : Nat}
    (hi : i < dst.length) (hminc : 1 ≤ minc)
    (hshared : minc ≤ pairCount target (dst.getD i default).phash_hex)
    (hdist : hamming target (dst.getD i default).phash_hex ≤ maxd)
    (hmaxc : dst.length ≤ maxc) :
    (i, hamming target (dst.getD i default).phash_hex) ∈
      candidates_for_hash target dst (build_chunk_index dst) maxd minc maxc := by
  have hpre : i ∈ prefilteredPositions target (build_chunk_index dst) minc :=
    mem_prefiltered_of_pairCount hi hminc hshared
  have hne : (prefilteredPositions target (build_chunk_index dst) minc).isEmpty
      = false := by
    cases hp : prefilteredPositions target (build_chunk_index dst) minc with
    | nil => rw [hp] at hpre; simp at hpre
    | cons a l => rfl
  have hraw : (i, hamming target (dst.getD i default).phash_hex) ∈
      raw_candidates target dst
        (prefilteredPositions target (build_chunk_index dst) minc) maxd := by
    refine List.mem_filterMap.mpr ⟨i, hpre, ?_⟩
    simp only [if_pos hdist]
  have hsorted : (i, hamming target (dst.getD i default).phash_hex) ∈
      sortByDist (raw_candidates target dst
        (prefilteredPositions target (build_chunk_index dst) minc) maxd) :=
    mem_sortByDist.mpr hraw
  have hlen : (sortByDist (raw_candidates target dst
      (prefilteredPositions target (build_chunk_index dst) minc) maxd)).length
      ≤ maxc := by
    rw [length_sortByDist]
    have h1 : (raw_candidates target dst
        (prefilteredPositions target (build_chunk_index dst) minc) maxd).length
        ≤ (prefilteredPositions target (build_chunk_index dst) minc).length :=
      List.length_filterMap_le _ _
    have h2 : (prefilteredPositions target (build_chunk_index dst) minc).length
        ≤ (chunk_counts target (build_chunk_index dst)).length := by
      rw [prefilteredPositions, List.length_map]
      exact List.length_filter_le _ _
    have h3 := chunk_counts_length_le target dst
    omega
  rw [candidates_for_hash]
  simp only [hne, Bool.false_eq_true, if_false]
  rw [List.take_of_length_le hlen]
  exact hsorted

/-! ### Claim C1 -/

/-- C1, amended: for destination lists that fit within `max_candidates`
and a positive `min_shared_chunks`, two fingerprints within Hamming
distance `phash_max_dist` of each other that share at least
`min_shared_chunks` chunks are mutual candidates: a query for either
fingerprint against an index containing the other returns the other's
position.  (As stated, the claim fails for `max_candidates` smaller than
the candidate list — see the counterexample.) -/
theorem claim1_mutual_candidacy
    (dstA dstB : List Entry) (iA iB : Nat) (f1 f2 : List Nat)
    (maxd minc maxc : Nat)
    (hiA : iA < dstA.length) (hiB : iB < dstB.length)
    (hfA : (dstA.getD iA default).phash_hex = f1)
    (hfB : (dstB.getD iB default).phash_hex = f2)
    (hminc : 1 ≤ minc)
    (hshared : minc ≤ sharedChunks f1 f2)
    (hdist : hamming f1 f2 ≤ maxd)
    (hmaxcA : dstA.length ≤ maxc) (hmaxcB : dstB.length ≤ maxc) :
    iB ∈ (candidates_for_hash f1 dstB (build_chunk_index dstB) maxd minc
      maxc).map Prod.fst ∧
    iA ∈ (candidates_for_hash f2 dstA (build_chunk_index dstA) maxd minc
      maxc).map Prod.fst := by
  constructor
  · have h1 : minc ≤ pairCount f1 (dstB.getD iB default).phash_hex := by
      rw [hfB]
      exact le_trans hshared (sharedChunks_le_pairCount f1 f2)
    have h2 : hamming f1 (dstB.getD iB default).phash_hex ≤ maxd := by
      rw [hfB]; exact hdist
    exact List.mem_map.mpr ⟨_, mem_candidates_of_close hiB hminc h1 h2 hmaxcB, rfl⟩
  · have h1 : minc ≤ pairCount f2 (dstA.getD iA default).phash_hex := by
      rw [hfA]
      have hs2 : minc ≤ sharedChunks f2 f1 := by
        rw [sharedChunks_comm f2 f1]; exact hshared
      exact le_trans hs2 (sharedChunks_le_pairCount f2 f1)
    have h2 : hamming f2 (dstA.getD iA default).phash_hex ≤ maxd := by
      rw [hfA, hamming_comm]; exact hdist
    exact List.mem_map.mpr ⟨_, mem_candidates_of_close hiA hminc h1 h2 hmaxcA, rfl⟩

/-- C1 as literally stated is false "for all configuration values": with
`max_candidates = 0` the truncation `out[:max_candidates]` drops every
candidate, even an identical fingerprint (distance 0, all four chunks
shared); and with `min_shared_chunks = 0` a fingerprint within distance
that shares no chunk value never enters the counter, so it is not returned
although it trivially shares at least zero chunks. -/
theorem claim1_counterexample :
    (hamming hashZero hashZero ≤ 10 ∧ 2 ≤ sharedChunks hashZero hashZero ∧
      candidates_for_hash hashZero [entryB0] (build_chunk_index [entryB0])
        10 2 0 = []) ∧
    (hamming hashZero hashDisjoint ≤ 10 ∧
      0 ≤ sharedChunks hashZero hashDisjoint ∧
      candidates_for_hash hashZero dstDisjoint (build_chunk_index dstDisjoint)
        10 0 30 = []) := by decide

/-- Witness for C1: two singleton sets holding the same fingerprint are
mutual candidates under the default configuration. -/
theorem claim1_witness :
    0 ∈ (candidates_for_hash hashZero [entryB0] (build_chunk_index [entryB0])
      10 2 30).map Prod.fst ∧
    0 ∈ (candidates_for_hash hashZero [entryA0] (build_chunk_index [entryA0])
      10 2 30).map Prod.fst :=
  claim1_mutual_candidacy [entryA0] [entryB0] 0 0 hashZero hashZero 10 2 30
    (by decide) (by decide) (by decide) (by decide) (by decide) (by decide)
    (by decide) (by decide) (by decide)

/-! ### Claim C3 -/

/-- C3, amended: candidate retrieval returns at most `max_candidates`
positions; every returned pair `(i, d)` names a valid entry position whose
exact Hamming distance to the query is `d ≤ phash_max_dist` and whose
chunk-overlap count (the number of query-chunk-position/entry-chunk-position
pairs with equal chunk values, which is what the inverted index
accumulates) is at least `min_shared_chunks`; the result is sorted
ascending by distance; and ties are kept in the order encountered (the
result's elements of each distance form a prefix of the unsorted refined
candidate list restricted to that distance).  (As literally stated — with
"chunks in common" read as chunk positions carrying equal values — the
prefilter clause is false; see the counterexample.) -/
theorem claim3_candidates_contract (target : List Nat) (dst : List Entry)
    (maxd minc maxc : Nat) :
    (candidates_for_hash target dst (build_chunk_index dst) maxd minc
        maxc).length ≤ maxc ∧
    (∀ p ∈ candidates_for_hash target dst (build_chunk_index dst) maxd minc maxc,
      p.1 < dst.length ∧
      p.2 = hamming target (dst.getD p.1 default).phash_hex ∧
      p.2 ≤ maxd ∧
      minc ≤ pairCount target (dst.getD p.1 default).phash_hex) ∧
    (candidates_for_hash target dst (build_chunk_index dst) maxd minc
        maxc).Pairwise (fun a b => a.2 ≤ b.2) ∧
    (∀ d, ∃ t, (candidates_for_hash target dst (build_chunk_index dst) maxd minc
        maxc).filter (fun x => x.2 == d) ++ t
      = (raw_candidates target dst
          (prefilteredPositions target (build_chunk_index dst) minc)
          maxd).filter (fun x => x.2 == d)) := by
  have hcand : candidates_for_hash target dst (build_chunk_index dst) maxd minc maxc
      = if (prefilteredPositions target (build_chunk_index dst) minc).isEmpty
        then []
        else (sortByDist (raw_candidates target dst
          (prefilteredPositions target (build_chunk_index dst) minc)
          maxd)).take maxc := rfl
  cases hp : (prefilteredPositions target (build_chunk_index dst) minc).isEmpty
  case true =>
    have hpre : prefilteredPositions target (build_chunk_index dst) minc = [] :=
      List.isEmpty_iff.mp hp
    rw [hcand, if_pos hp]
    refine ⟨by simp, by simp, by simp, ?_⟩
    intro d
    refine ⟨[], ?_⟩
    rw [hpre, raw_candidates]
    simp
  case false =>
    rw [hcand, if_neg (by simp [hp])]
    refine ⟨?_, ?_, ?_, ?_⟩
    · rw [List.length_take]
      exact Nat.min_le_left _ _
    · intro p hpmem
      have hsortmem := List.mem_of_mem_take hpmem
      have hraw := mem_sortByDist.mp hsortmem
      rw [raw_candidates] at hraw
      rcases List.mem_filterMap.mp hraw with ⟨i, hipre, hfi⟩
      have hfi' : (if hamming target (dst.getD i default).phash_hex ≤ maxd
          then some (i, hamming target (dst.getD i default).phash_hex)
          else none) = some p := hfi
      by_cases hd : hamming target (dst.getD i default).phash_hex ≤ maxd
      · rw [if_pos hd] at hfi'
        have hpi : p = (i, hamming target (dst.getD i default).phash_hex) :=
          (Option.some.inj hfi').symm
        subst hpi
        exact ⟨mem_prefiltered_lt hipre, rfl, hd, mem_prefiltered_pairCount hipre⟩
      · rw [if_neg hd] at hfi'
        exact absurd hfi' (by simp)
    · exact List.Pairwise.sublist (List.take_sublist _ _) (sortByDist_sorted _)
    · intro d
      refine ⟨((sortByDist (raw_candidates target dst
          (prefilteredPositions target (build_chunk_index dst) minc)
          maxd)).drop maxc).filter (fun x => x.2 == d), ?_⟩
      rw [← List.filter_append, List.take_append_drop, filter_sortByDist]

/-- C3's prefilter clause fails as literally stated: against a destination
whose fingerprint agrees with the query on one chunk position only (and
holds a single common chunk value), the entry is still returned under
`min_shared_chunks = 2`, because the inverted index counts every
query-position/entry-position pair and the all-zero query hits the shared
chunk from all four of its positions. -/
theorem claim3_counterexample :
    candidates_for_hash hashZero dstMixed (build_chunk_index dstMixed) 10 2 30
        = [(0, 4)] ∧
      sharedChunks hashZero hashMixed < 2 := by decide

/-- Witness for C3 at a concrete input: the returned list respects the
`max_candidates` bound. -/
theorem claim3_witness :
    (candidates_for_hash hashZero dstMixed (build_chunk_index dstMixed)
      10 2 30).length ≤ 30 :=
  (claim3_candidates_contract hashZero dstMixed 10 2 30).1

/-! ### Claim C9 -/

/-- C9: for every pair of grayscale rasters and every feature-count bound,
`orb_score` returns `(good, inliers)` with `inliers ≤ good`, and
`inliers = 0` whenever `good < 10`.  The only assumption on the OpenCV
oracle is its documented contract that the RANSAC inlier mask has one flag
per input correspondence (`≤` suffices). -/
theorem claim9_orb_score_bounds [Inhabited KP] (env : OrbEnv Gray KP Desc Pt)
    (gA gB : Gray) (nf : Nat)
    (hmask : ∀ pts mask, env.findHomography pts = some mask →
      mask.length ≤ pts.length) :
    (orb_score env gA gB nf).2 ≤ (orb_score env gA gB nf).1 ∧
    ((orb_score env gA gB nf).1 < 10 → (orb_score env gA gB nf).2 = 0) := by
  rw [orb_score]
  rcases hda : env.detect gA nf with ⟨kpa, da⟩
  rcases hdb : env.detect gB nf with ⟨kpb, db⟩
  rcases da with _ | desa
  · simp
  rcases db with _ | desb
  · simp
  simp only
  by_cases hfew : kpa.length < 10 ∨ kpb.length < 10
  · rw [if_pos hfew]
    simp
  rw [if_neg hfew]
  by_cases hg : (List.filterMap (fun mn =>
      match mn with
      | [m, n] => if env.ratioPass m n then some m else none
      | _ => none) (env.knnMatch desa desb 2)).length < 10
  · rw [if_pos hg]
    simp
  rw [if_neg hg]
  have key : ∀ (o : Option (List Bool)) (n : Nat),
      (∀ mask, o = some mask → mask.length ≤ n) →
      (match o with | some mask => mask.count true | none => 0) ≤ n := by
    intro o n h
    cases o with
    | none => simp
    | some mask =>
      simpa using le_trans (List.count_le_length _ _) (h mask rfl)
  refine ⟨?_, fun hlt => absurd hlt hg⟩
  refine key _ _ ?_
  intro mask hfh
  have h2 := hmask _ _ hfh
  rw [List.length_map] at h2
  exact h2

/-- Witness for C9 with the concrete rich OpenCV environment (whose
homography oracle returns one mask flag per correspondence). -/
theorem claim9_witness :
    (orb_score orbEnvRich 0 0 1500).2 ≤ (orb_score orbEnvRich 0 0 1500).1 ∧
    ((orb_score orbEnvRich 0 0 1500).1 < 10 →
      (orb_score orbEnvRich 0 0 1500).2 = 0) :=
  claim9_orb_score_bounds orbEnvRich 0 0 1500
    (fun pts mask h => by
      have : List.replicate pts.length true = mask := Option.some.inj h
      rw [← this, List.length_replicate])

/-! ### The lexicographic best key -/

theorem keyLT_irrefl (x : Key) : keyLT x x = false := by
  rcases x with ⟨a, b, c⟩
  simp [keyLT]

theorem keyLT_shift {x y z : Key} (h1 : keyLT x y = false)
    (h2 : keyLT x z = true) : keyLT z y = false := by
  rcases x with ⟨a1, a2, a3⟩
  rcases y with ⟨b1, b2, b3⟩
  rcases z with ⟨c1, c2, c3⟩
  simp [keyLT] at h1 h2 ⊢
  omega

theorem keyLT_initKey (m : MatchInfo) : keyLT initKey (keyOfInfo m) = true := by
  simp [keyLT, initKey, keyOfInfo]
  omega

/-! ### Cache coherence and equivalence with the cache-free loop -/

theorem cacheOK_nil (envI : ImgEnv Img Gray) (cfg : Config)
    (dst : List Entry) : CacheOK envI cfg dst [] := by
  intro p hp
  exact absurd hp (List.not_mem_nil p)

theorem cacheGet_ok {envI : ImgEnv Img Gray} {cfg : Config} {dst : List Entry}
    {cache : Cache Img} (h : CacheOK envI cfg dst cache) {i : Nat} {im : Img}
    (hc : cacheGet cache i = some im) :
    envI.loadImage (dst.getD i default).path cfg.max_side = some im := by
  rw [cacheGet] at hc
  rcases hfind : cache.find? (fun p => p.1 == i) with _ | p
  · rw [hfind] at hc
    simp at hc
  · rw [hfind] at hc
    simp at hc
    have hmem := List.mem_of_find?_eq_some hfind
    have hpi : p.1 = i := by simpa using List.find?_some hfind
    have := h p hmem
    rw [hpi, hc] at this
    exact this

theorem cacheOK_extend {envI : ImgEnv Img Gray} {cfg : Config}
    {dst : List Entry} {cache : Cache Img} (h : CacheOK envI cfg dst cache)
    {i : Nat} {im : Img}
    (hld : envI.loadImage (dst.getD i default).path cfg.max_side = some im) :
    CacheOK envI cfg dst (cache ++ [(i, im)]) := by
  intro p hp
  rcases List.mem_append.mp hp with h1 | h2
  · exact h p h1
  · have : p = (i, im) := by simpa using h2
    rw [this]
    exact hld

theorem bmStep_pure_eq [Inhabited KP] {envI : ImgEnv Img Gray}
    (envO : OrbEnv Gray KP Desc Pt) {cfg : Config} {dst : List Entry}
    (srcGray : Gray) {cache : Cache Img} (h : CacheOK envI cfg dst cache)
    (best : Option MatchInfo) (bkey : Key) (c : Nat × Nat) :
    ((bmStep envI envO cfg dst srcGray (best, bkey, cache) c).1,
      (bmStep envI envO cfg dst srcGray (best, bkey, cache) c).2.1)
      = bmStepPure envI envO cfg dst srcGray (best, bkey) c
    ∧ CacheOK envI cfg dst
        (bmStep envI envO cfg dst srcGray (best, bkey, cache) c).2.2 := by
  rw [bmStep, bmStepPure]
  rcases hcg : cacheGet cache c.1 with _ | im
  · rcases hld : envI.loadImage (dst.getD c.1 default).path cfg.max_side
      with _ | im
    · simp only [hcg, hld]
      exact ⟨by trivial, h⟩
    · simp only [hcg, hld]
      have hok := cacheOK_extend h hld
      by_cases hthr : cfg.orb_min_matches
            ≤ (orb_score envO srcGray (envI.toGray im cfg.max_side)
              cfg.orb_nfeatures).1
          ∧ cfg.orb_min_inliers
            ≤ (orb_score envO srcGray (envI.toGray im cfg.max_side)
              cfg.orb_nfeatures).2
      · simp only [if_pos hthr]
        cases hupd : keyLT bkey
            (((orb_score envO srcGray (envI.toGray im cfg.max_side)
                cfg.orb_nfeatures).2 : Int),
              ((orb_score envO srcGray (envI.toGray im cfg.max_side)
                cfg.orb_nfeatures).1 : Int), -((c.2 : Nat) : Int))
        · simp only [hupd, Bool.false_eq_true, if_false]
          exact ⟨by trivial, hok⟩
        · simp only [hupd, if_true]
          exact ⟨by trivial, hok⟩
      · simp only [if_neg hthr]
        exact ⟨by trivial, hok⟩
  · have hld := cacheGet_ok h hcg
    simp only [hcg, hld]
    by_cases hthr : cfg.orb_min_matches
          ≤ (orb_score envO srcGray (envI.toGray im cfg.max_side)
            cfg.orb_nfeatures).1
        ∧ cfg.orb_min_inliers
          ≤ (orb_score envO srcGray (envI.toGray im cfg.max_side)
            cfg.orb_nfeatures).2
    · simp only [if_pos hthr]
      cases hupd : keyLT bkey
          (((orb_score envO srcGray (envI.toGray im cfg.max_side)
              cfg.orb_nfeatures).2 : Int),
            ((orb_score envO srcGray (envI.toGray im cfg.max_side)
              cfg.orb_nfeatures).1 : Int), -((c.2 : Nat) : Int))
      · simp only [hupd, Bool.false_eq_true, if_false]
        exact ⟨by trivial, h⟩
      · simp only [hupd, if_true]
        exact ⟨by trivial, h⟩
    · simp only [if_neg hthr]
      exact ⟨by trivial, h⟩

theorem bmFold_pure_eq [Inhabited KP] {envI : ImgEnv Img Gray}
    (envO : OrbEnv Gray KP Desc Pt) {cfg : Config} {dst : List Entry}
    (srcGray : Gray) (cand : List (Nat × Nat)) :
    ∀ (best : Option MatchInfo) (bkey : Key) (cache : Cache Img),
      CacheOK envI cfg dst cache →
      ((cand.foldl (bmStep envI envO cfg dst srcGray) (best, bkey, cache)).1,
        (cand.foldl (bmStep envI envO cfg dst srcGray) (best, bkey, cache)).2.1)
        = cand.foldl (bmStepPure envI envO cfg dst srcGray) (best, bkey)
      ∧ CacheOK envI cfg dst
          (cand.foldl (bmStep envI envO cfg dst srcGray)
            (best, bkey, cache)).2.2 := by
  induction cand with
  | nil => intro best bkey cache h; exact ⟨by trivial, h⟩
  | cons c rest ih =>
    intro best bkey cache h
    rw [List.foldl_cons, List.foldl_cons]
    have hstep := bmStep_pure_eq envO srcGray h best bkey c
    have heta : bmStep envI envO cfg dst srcGray (best, bkey, cache) c
        = ((bmStep envI envO cfg dst srcGray (best, bkey, cache) c).1,
           (bmStep envI envO cfg dst srcGray (best, bkey, cache) c).2.1,
           (bmStep envI envO cfg dst srcGray (best, bkey, cache) c).2.2) := rfl
    rw [heta, ← hstep.1]
    exact ih _ _ _ hstep.2

theorem best_match_pure_spec [Inhabited KP] {envI : ImgEnv Img Gray}
    (envO : OrbEnv Gray KP Desc Pt) {cfg : Config} {dst : List Entry}
    {cache : Cache Img} (h : CacheOK envI cfg dst cache) (e : Entry)
    (idx : List Nat → List Nat) :
    (best_match envI envO cfg cache e dst idx).1
      = best_match_pure envI envO cfg e.path dst idx
    ∧ CacheOK envI cfg dst (best_match envI envO cfg cache e dst idx).2 := by
  rw [best_match, best_match_pure]
  rcases hld : envI.loadImage e.path cfg.max_side with _ | srcImg
  · exact ⟨by trivial, h⟩
  · simp only
    cases hc : (candidates_for_hash (envI.phashOf srcImg) dst idx
        cfg.phash_max_dist cfg.min_shared_chunks cfg.max_candidates).isEmpty
    · simp only [hc, Bool.false_eq_true, if_false]
      have := bmFold_pure_eq envO (envI.toGray srcImg cfg.max_side)
        (candidates_for_hash (envI.phashOf srcImg) dst idx
          cfg.phash_max_dist cfg.min_shared_chunks cfg.max_candidates)
        none initKey cache h
      exact ⟨congrArg Prod.fst this.1, this.2⟩
    · simp only [hc, if_true]
      exact ⟨by trivial, h⟩

/-! ### The running best is maximal among confirmed candidates -/

section BestSelection

variable [Inhabited KP] {envI : ImgEnv Img Gray} {envO : OrbEnv Gray KP Desc Pt}
  {cfg : Config} {dst : List Entry} {srcGray : Gray}

theorem bmStepPure_none (st : Option MatchInfo × Key) (c : Nat × Nat)
    (hld : envI.loadImage (dst.getD c.1 default).path cfg.max_side = none) :
    bmStepPure envI envO cfg dst srcGray st c = st := by
  simp only [bmStepPure, hld]

theorem bmStepPure_skip (st : Option MatchInfo × Key) (c : Nat × Nat) (im : Img)
    (hld : envI.loadImage (dst.getD c.1 default).path cfg.max_side = some im)
    (hthr : ¬ (cfg.orb_min_matches ≤ (orb_score envO srcGray
        (envI.toGray im cfg.max_side) cfg.orb_nfeatures).1
      ∧ cfg.orb_min_inliers ≤ (orb_score envO srcGray
        (envI.toGray im cfg.max_side) cfg.orb_nfeatures).2)) :
    bmStepPure envI envO cfg dst srcGray st c = st := by
  simp only [bmStepPure, hld, if_neg hthr]

theorem bmStepPure_update (st : Option MatchInfo × Key) (c : Nat × Nat) (im : Img)
    (hld : envI.loadImage (dst.getD c.1 default).path cfg.max_side = some im)
    (hthr : cfg.orb_min_matches ≤ (orb_score envO srcGray
        (envI.toGray im cfg.max_side) cfg.orb_nfeatures).1
      ∧ cfg.orb_min_inliers ≤ (orb_score envO srcGray
        (envI.toGray im cfg.max_side) cfg.orb_nfeatures).2)
    (hupd : keyLT st.2 (((orb_score envO srcGray (envI.toGray im cfg.max_side)
        cfg.orb_nfeatures).2 : Int),
      ((orb_score envO srcGray (envI.toGray im cfg.max_side)
        cfg.orb_nfeatures).1 : Int), -((c.2 : Nat) : Int)) = true) :
    bmStepPure envI envO cfg dst srcGray st c
      = (some ⟨(dst.getD c.1 default).path, (dst.getD c.1 default).ext, c.2,
          (orb_score envO srcGray (envI.toGray im cfg.max_side)
            cfg.orb_nfeatures).1,
          (orb_score envO srcGray (envI.toGray im cfg.max_side)
            cfg.orb_nfeatures).2⟩,
        (((orb_score envO srcGray (envI.toGray im cfg.max_side)
            cfg.orb_nfeatures).2 : Int),
          ((orb_score envO srcGray (envI.toGray im cfg.max_side)
            cfg.orb_nfeatures).1 : Int), -((c.2 : Nat) : Int))) := by
  simp only [bmStepPure, hld, if_pos hthr, hupd, if_true]

theorem bmStepPure_keep (st : Option MatchInfo × Key) (c : Nat × Nat) (im : Img)
    (hld : envI.loadImage (dst.getD c.1 default).path cfg.max_side = some im)
    (hthr : cfg.orb_min_matches ≤ (orb_score envO srcGray
        (envI.toGray im cfg.max_side) cfg.orb_nfeatures).1
      ∧ cfg.orb_min_inliers ≤ (orb_score envO srcGray
        (envI.toGray im cfg.max_side) cfg.orb_nfeatures).2)
    (hupd : keyLT st.2 (((orb_score envO srcGray (envI.toGray im cfg.max_side)
        cfg.orb_nfeatures).2 : Int),
      ((orb_score envO srcGray (envI.toGray im cfg.max_side)
        cfg.orb_nfeatures).1 : Int), -((c.2 : Nat) : Int)) = false) :
    bmStepPure envI envO cfg dst srcGray st c = st := by
  simp only [bmStepPure, hld, if_pos hthr, hupd, Bool.false_eq_true, if_false]

theorem confirmed_candidates_cons_none (c : Nat × Nat) (rest : List (Nat × Nat))
    (hld : envI.loadImage (dst.getD c.1 default).path cfg.max_side = none) :
    confirmed_candidates envI envO cfg srcGray dst (c :: rest)
      = confirmed_candidates envI envO cfg srcGray dst rest := by
  rw [confirmed_candidates, confirmed_candidates, List.filterMap_cons]
  simp only [hld]

theorem confirmed_candidates_cons_skip (c : Nat × Nat) (rest : List (Nat × Nat))
    (im : Img)
    (hld : envI.loadImage (dst.getD c.1 default).path cfg.max_side = some im)
    (hthr : ¬ (cfg.orb_min_matches ≤ (orb_score envO srcGray
        (envI.toGray im cfg.max_side) cfg.orb_nfeatures).1
      ∧ cfg.orb_min_inliers ≤ (orb_score envO srcGray
        (envI.toGray im cfg.max_side) cfg.orb_nfeatures).2)) :
    confirmed_candidates envI envO cfg srcGray dst (c :: rest)
      = confirmed_candidates envI envO cfg srcGray dst rest := by
  rw [confirmed_candidates, confirmed_candidates, List.filterMap_cons]
  simp only [hld, if_neg hthr]

theorem confirmed_candidates_cons_conf (c : Nat × Nat) (rest : List (Nat × Nat))
    (im : Img)
    (hld : envI.loadImage (dst.getD c.1 default).path cfg.max_side = some im)
    (hthr : cfg.orb_min_matches ≤ (orb_score envO srcGray
        (envI.toGray im cfg.max_side) cfg.orb_nfeatures).1
      ∧ cfg.orb_min_inliers ≤ (orb_score envO srcGray
        (envI.toGray im cfg.max_side) cfg.orb_nfeatures).2) :
    confirmed_candidates envI envO cfg srcGray dst (c :: rest)
      = ⟨(dst.getD c.1 default).path, (dst.getD c.1 default).ext, c.2,
          (orb_score envO srcGray (envI.toGray im cfg.max_side)
            cfg.orb_nfeatures).1,
          (orb_score envO srcGray (envI.toGray im cfg.max_side)
            cfg.orb_nfeatures).2⟩
        :: confirmed_candidates envI envO cfg srcGray dst rest := by
  rw [confirmed_candidates, confirmed_candidates, List.filterMap_cons]
  simp only [hld, if_pos hthr]

theorem bmInv_init : BMInv (none, initKey) [] := by
  refine ⟨fun _ => ⟨rfl, rfl⟩, ?_, ?_⟩
  · intro m hm
    exact Option.noConfusion hm
  · intro m' hm'
    exact absurd hm' (List.not_mem_nil m')

theorem bmFoldPure_inv (cand : List (Nat × Nat)) :
    ∀ (st : Option MatchInfo × Key) (confirmed : List MatchInfo),
      BMInv st confirmed →
      BMInv (cand.foldl (bmStepPure envI envO cfg dst srcGray) st)
        (confirmed ++ confirmed_candidates envI envO cfg srcGray dst cand) := by
  induction cand with
  | nil =>
    intro st confirmed h
    simpa [confirmed_candidates] using h
  | cons c rest ih =>
    intro st confirmed h
    rw [List.foldl_cons]
    rcases hld : envI.loadImage (dst.getD c.1 default).path cfg.max_side
      with _ | im
    · rw [bmStepPure_none st c hld, confirmed_candidates_cons_none c rest hld]
      exact ih st confirmed h
    · by_cases hthr : cfg.orb_min_matches ≤ (orb_score envO srcGray
          (envI.toGray im cfg.max_side) cfg.orb_nfeatures).1
        ∧ cfg.orb_min_inliers ≤ (orb_score envO srcGray
          (envI.toGray im cfg.max_side) cfg.orb_nfeatures).2
      · rw [confirmed_candidates_cons_conf c rest im hld hthr]
        cases hupd : keyLT st.2 (((orb_score envO srcGray
            (envI.toGray im cfg.max_side) cfg.orb_nfeatures).2 : Int),
          ((orb_score envO srcGray (envI.toGray im cfg.max_side)
            cfg.orb_nfeatures).1 : Int), -((c.2 : Nat) : Int))
        · rw [bmStepPure_keep st c im hld hthr hupd]
          have hinv : BMInv st (confirmed ++
              [⟨(dst.getD c.1 default).path, (dst.getD c.1 default).ext, c.2,
                (orb_score envO srcGray (envI.toGray im cfg.max_side)
                  cfg.orb_nfeatures).1,
                (orb_score envO srcGray (envI.toGray im cfg.max_side)
                  cfg.orb_nfeatures).2⟩]) := by
            refine ⟨?_, ?_, ?_⟩
            · intro h0
              rcases h.1 h0 with ⟨hc0, hk0⟩
              rw [hk0] at hupd
              have := keyLT_initKey ⟨(dst.getD c.1 default).path,
                (dst.getD c.1 default).ext, c.2,
                (orb_score envO srcGray (envI.toGray im cfg.max_side)
                  cfg.orb_nfeatures).1,
                (orb_score envO srcGray (envI.toGray im cfg.max_side)
                  cfg.orb_nfeatures).2⟩
              rw [keyOfInfo] at this
              simp only at this
              rw [this] at hupd
              exact absurd hupd (by simp)
            · intro m hm
              rcases h.2.1 m hm with ⟨hmem, hkey⟩
              exact ⟨List.mem_append_left _ hmem, hkey⟩
            · intro m' hm'
              rcases List.mem_append.mp hm' with h1 | h2
              · exact h.2.2 m' h1
              · have hm'eq : m' = ⟨(dst.getD c.1 default).path,
                    (dst.getD c.1 default).ext, c.2,
                    (orb_score envO srcGray (envI.toGray im cfg.max_side)
                      cfg.orb_nfeatures).1,
                    (orb_score envO srcGray (envI.toGray im cfg.max_side)
                      cfg.orb_nfeatures).2⟩ := by simpa using h2
                rw [hm'eq, keyOfInfo]
                exact hupd
          have := ih st _ hinv
          rw [List.append_assoc, List.singleton_append] at this
          exact this
        · rw [bmStepPure_update st c im hld hthr hupd]
          have hinv : BMInv (some ⟨(dst.getD c.1 default).path,
              (dst.getD c.1 default).ext, c.2,
              (orb_score envO srcGray (envI.toGray im cfg.max_side)
                cfg.orb_nfeatures).1,
              (orb_score envO srcGray (envI.toGray im cfg.max_side)
                cfg.orb_nfeatures).2⟩,
              (((orb_score envO srcGray (envI.toGray im cfg.max_side)
                cfg.orb_nfeatures).2 : Int),
               ((orb_score envO srcGray (envI.toGray im cfg.max_side)
                cfg.orb_nfeatures).1 : Int), -((c.2 : Nat) : Int)))
              (confirmed ++ [⟨(dst.getD c.1 default).path,
                (dst.getD c.1 default).ext, c.2,
                (orb_score envO srcGray (envI.toGray im cfg.max_side)
                  cfg.orb_nfeatures).1,
                (orb_score envO srcGray (envI.toGray im cfg.max_side)
                  cfg.orb_nfeatures).2⟩]) := by
            refine ⟨?_, ?_, ?_⟩
            · intro h0
              exact Option.noConfusion h0
            · intro m hm
              have hmeq := Option.some.inj hm
              refine ⟨?_, ?_⟩
              · rw [← hmeq]
                exact List.mem_append_right _ (by simp)
              · rw [← hmeq, keyOfInfo]
            · intro m' hm'
              rcases List.mem_append.mp hm' with h1 | h2
              · exact keyLT_shift (h.2.2 m' h1) hupd
              · have hm'eq : m' = ⟨(dst.getD c.1 default).path,
                    (dst.getD c.1 default).ext, c.2,
                    (orb_score envO srcGray (envI.toGray im cfg.max_side)
                      cfg.orb_nfeatures).1,
                    (orb_score envO srcGray (envI.toGray im cfg.max_side)
                      cfg.orb_nfeatures).2⟩ := by simpa using h2
                rw [hm'eq, keyOfInfo]
                exact keyLT_irrefl _
          have := ih _ _ hinv
          rw [List.append_assoc, List.singleton_append] at this
          exact this
      · rw [bmStepPure_skip st c im hld hthr,
          confirmed_candidates_cons_skip c rest im hld hthr]
        exact ih st confirmed h

/-! ### Claim C4 -/

/-- C4: when the source image decodes and at least one candidate is
retrieved, the `best_match` result (from any coherent cache state, the
empty one included) is a confirmed candidate whose composite key
`(inlier_count, good_match_count, -hash_distance)` is lexicographically
maximal among all confirmed candidates; when no candidate is confirmed, no
match is returned.  (Candidates are evaluated in the ascending-distance
order `candidates_for_hash` produced, which is how ties keep the first
maximal candidate.) -/
theorem claim4_best_key_maximal (envI : ImgEnv Img Gray)
    (envO : OrbEnv Gray KP Desc Pt) (cfg : Config) (cache : Cache Img)
    (src : Entry) (dst : List Entry) (srcImg : Img)
    (cand : List (Nat × Nat)) (confirmed : List MatchInfo)
    (hcache : CacheOK envI cfg dst cache)
    (hload : envI.loadImage src.path cfg.max_side = some srcImg)
    (hcand : cand = candidates_for_hash (envI.phashOf srcImg) dst
      (build_chunk_index dst) cfg.phash_max_dist cfg.min_shared_chunks
      cfg.max_candidates)
    (hconf : confirmed = confirmed_candidates envI envO cfg
      (envI.toGray srcImg cfg.max_side) dst cand)
    (hne : cand ≠ []) :
    (∀ m, (best_match envI envO cfg cache src dst (build_chunk_index dst)).1
        = some m →
      m ∈ confirmed ∧ ∀ m' ∈ confirmed,
        keyLT (keyOfInfo m) (keyOfInfo m') = false) ∧
    (confirmed = [] →
      (best_match envI envO cfg cache src dst (build_chunk_index dst)).1
        = none) := by
  have hpure := (best_match_pure_spec envO hcache src
    (build_chunk_index dst)).1
  rw [hpure]
  have hbmp : best_match_pure envI envO cfg src.path dst (build_chunk_index dst)
      = if cand.isEmpty then none
        else (cand.foldl (bmStepPure envI envO cfg dst
          (envI.toGray srcImg cfg.max_side)) (none, initKey)).1 := by
    simp only [best_match_pure, hload]
    rw [← hcand]
  rw [hbmp]
  have hemp : cand.isEmpty = false := by
    cases hc : cand with
    | nil => exact absurd hc hne
    | cons a l => rfl
  rw [hemp]
  simp only [Bool.false_eq_true, if_false]
  have hinv : BMInv
      (cand.foldl (bmStepPure envI envO cfg dst
        (envI.toGray srcImg cfg.max_side)) (none, initKey))
      ([] ++ confirmed_candidates envI envO cfg
        (envI.toGray srcImg cfg.max_side) dst cand) :=
    bmFoldPure_inv cand (none, initKey) [] bmInv_init
  rw [List.nil_append, ← hconf] at hinv
  constructor
  · intro m hm
    rcases hinv.2.1 m hm with ⟨hmem, hkey⟩
    refine ⟨hmem, ?_⟩
    intro m' hm'
    have := hinv.2.2 m' hm'
    rw [hkey] at this
    exact this
  · intro hempty
    cases hF : (cand.foldl (bmStepPure envI envO cfg dst
        (envI.toGray srcImg cfg.max_side)) (none, initKey)).1 with
    | none => rfl
    | some m =>
      rcases hinv.2.1 m hF with ⟨hmem, _⟩
      rw [hempty] at hmem
      exact absurd hmem (List.not_mem_nil m)

end BestSelection

/-- Witness for C4 at a concrete input (the all-zero query against a
single identical destination, with an OpenCV oracle that confirms it). -/
theorem claim4_witness :
    (∀ m, (best_match imgEnvZero orbEnvRich cfgWitness [] entryA0 [entryB0]
        (build_chunk_index [entryB0])).1 = some m →
      m ∈ confirmedW ∧ ∀ m' ∈ confirmedW,
        keyLT (keyOfInfo m) (keyOfInfo m') = false) ∧
    (confirmedW = [] →
      (best_match imgEnvZero orbEnvRich cfgWitness [] entryA0 [entryB0]
        (build_chunk_index [entryB0])).1 = none) :=
  claim4_best_key_maximal imgEnvZero orbEnvRich cfgWitness [] entryA0 [entryB0]
    0 candW confirmedW (cacheOK_nil _ _ _) rfl rfl rfl (by decide)

/-! ### Claim C5 -/

section Thresholds

variable [Inhabited KP] {envI : ImgEnv Img Gray} {envO : OrbEnv Gray KP Desc Pt}
  {cfg : Config} {dst : List Entry} {srcGray : Gray}
  {idx : List Nat → List Nat}

theorem bmStep_some_thresholds (best : Option MatchInfo) (bkey : Key)
    (cache : Cache Img) (c : Nat × Nat) (m : MatchInfo)
    (hst : ∀ m0, best = some m0 → cfg.orb_min_matches ≤ m0.orbGoodMatches
      ∧ cfg.orb_min_inliers ≤ m0.orbInliers)
    (h : (bmStep envI envO cfg dst srcGray (best, bkey, cache) c).1 = some m) :
    cfg.orb_min_matches ≤ m.orbGoodMatches
      ∧ cfg.orb_min_inliers ≤ m.orbInliers := by
  simp only [bmStep] at h
  rcases hcg : cacheGet cache c.1 with _ | im
  · rcases hld : envI.loadImage (dst.getD c.1 default).path cfg.max_side
      with _ | im
    · simp only [hcg, hld] at h
      exact hst m h
    · simp only [hcg, hld] at h
      by_cases hthr : cfg.orb_min_matches ≤ (orb_score envO srcGray
            (envI.toGray im cfg.max_side) cfg.orb_nfeatures).1
          ∧ cfg.orb_min_inliers ≤ (orb_score envO srcGray
            (envI.toGray im cfg.max_side) cfg.orb_nfeatures).2
      · simp only [if_pos hthr] at h
        cases hupd : keyLT bkey (((orb_score envO srcGray
            (envI.toGray im cfg.max_side) cfg.orb_nfeatures).2 : Int),
          ((orb_score envO srcGray (envI.toGray im cfg.max_side)
            cfg.orb_nfeatures).1 : Int), -((c.2 : Nat) : Int))
        · simp only [hupd, Bool.false_eq_true, if_false] at h
          exact hst m h
        · simp only [hupd, if_true] at h
          have hm := Option.some.inj h
          rw [← hm]
          exact hthr
      · simp only [if_neg hthr] at h
        exact hst m h
  · simp only [hcg] at h
    by_cases hthr : cfg.orb_min_matches ≤ (orb_score envO srcGray
          (envI.toGray im cfg.max_side) cfg.orb_nfeatures).1
        ∧ cfg.orb_min_inliers ≤ (orb_score envO srcGray
          (envI.toGray im cfg.max_side) cfg.orb_nfeatures).2
    · simp only [if_pos hthr] at h
      cases hupd : keyLT bkey (((orb_score envO srcGray
          (envI.toGray im cfg.max_side) cfg.orb_nfeatures).2 : Int),
        ((orb_score envO srcGray (envI.toGray im cfg.max_side)
          cfg.orb_nfeatures).1 : Int), -((c.2 : Nat) : Int))
      · simp only [hupd, Bool.false_eq_true, if_false] at h
        exact hst m h
      · simp only [hupd, if_true] at h
        have hm := Option.some.inj h
        rw [← hm]
        exact hthr
    · simp only [if_neg hthr] at h
      exact hst m h

theorem bmFold_some_thresholds (cand : List (Nat × Nat)) :
    ∀ (best : Option MatchInfo) (bkey : Key) (cache : Cache Img) (m : MatchInfo),
      (∀ m0, best = some m0 → cfg.orb_min_matches ≤ m0.orbGoodMatches
        ∧ cfg.orb_min_inliers ≤ m0.orbInliers) →
      (cand.foldl (bmStep envI envO cfg dst srcGray) (best, bkey, cache)).1
        = some m →
      cfg.orb_min_matches ≤ m.orbGoodMatches
        ∧ cfg.orb_min_inliers ≤ m.orbInliers := by
  induction cand with
  | nil =>
    intro best bkey cache m hst h
    exact hst m h
  | cons c rest ih =>
    intro best bkey cache m hst h
    rw [List.foldl_cons] at h
    have heta : bmStep envI envO cfg dst srcGray (best, bkey, cache) c
        = ((bmStep envI envO cfg dst srcGray (best, bkey, cache) c).1,
           (bmStep envI envO cfg dst srcGray (best, bkey, cache) c).2.1,
           (bmStep envI envO cfg dst srcGray (best, bkey, cache) c).2.2) := rfl
    rw [heta] at h
    exact ih _ _ _ m (fun m0 h0 => bmStep_some_thresholds best bkey cache c m0 hst h0) h

theorem best_match_some_thresholds (cache : Cache Img) (e : Entry) (m : MatchInfo)
    (h : (best_match envI envO cfg cache e dst idx).1 = some m) :
    cfg.orb_min_matches ≤ m.orbGoodMatches
      ∧ cfg.orb_min_inliers ≤ m.orbInliers := by
  simp only [best_match] at h
  rcases hld : envI.loadImage e.path cfg.max_side with _ | srcImg
  · rw [hld] at h
    exact Option.noConfusion h
  · rw [hld] at h
    simp only at h
    cases hc : (candidates_for_hash (envI.phashOf srcImg) dst idx
        cfg.phash_max_dist cfg.min_shared_chunks cfg.max_candidates).isEmpty
    · simp only [hc, Bool.false_eq_true, if_false] at h
      exact bmFold_some_thresholds _ none initKey cache m
        (fun m0 h0 => Option.noConfusion h0) h
    · simp only [hc, if_true] at h
      exact Option.noConfusion h

theorem matchFold_matches_thresholds :
    ∀ (l : List Entry) (cache : Cache Img),
      ∀ cm ∈ (matchFold envI envO cfg dst idx l cache).1,
        cfg.orb_min_matches ≤ cm.orbGoodMatches
          ∧ cfg.orb_min_inliers ≤ cm.orbInliers := by
  intro l
  induction l with
  | nil =>
    intro cache cm hcm
    exact absurd hcm (List.not_mem_nil cm)
  | cons e rest ih =>
    intro cache cm hcm
    rcases hr : (best_match envI envO cfg cache e dst idx).1 with _ | m
    · simp only [matchFold, hr] at hcm
      exact ih _ cm hcm
    · simp only [matchFold, hr] at hcm
      rcases List.mem_cons.mp hcm with heq | hmem
      · rw [heq]
        exact best_match_some_thresholds cache e m hr
      · exact ih _ cm hmem

end Thresholds

/-- C5: every ConfirmedMatch emitted by a directional pass satisfies both
ORB thresholds (`good_match_count ≥ orb_min_matches` and
`inlier_count ≥ orb_min_inliers`), for all threshold values: a candidate
failing either threshold is never emitted. -/
theorem claim5_confirmed_thresholds [Inhabited KP] (envI : ImgEnv Img Gray)
    (envO : OrbEnv Gray KP Desc Pt) (cfg : Config)
    (src_entries dst_entries : List Entry) (idx : List Nat → List Nat) :
    ∀ cm ∈ (match_direction envI envO cfg src_entries dst_entries idx).1,
      cfg.orb_min_matches ≤ cm.orbGoodMatches
        ∧ cfg.orb_min_inliers ≤ cm.orbInliers := by
  intro cm hcm
  rw [match_direction] at hcm
  exact matchFold_matches_thresholds src_entries [] cm hcm

/-- Witness for C5: the match emitted in the concrete run meets both
thresholds. -/
theorem claim5_witness :
    cfgWitness.orb_min_matches
        ≤ (⟨"a", "jpg", "b", "jpg", 0, 10, 10⟩ : ConfirmedMatch).orbGoodMatches
      ∧ cfgWitness.orb_min_inliers
        ≤ (⟨"a", "jpg", "b", "jpg", 0, 10, 10⟩ : ConfirmedMatch).orbInliers :=
  claim5_confirmed_thresholds imgEnvZero orbEnvRich cfgWitness [entryA0]
    [entryB0] (build_chunk_index [entryB0])
    ⟨"a", "jpg", "b", "jpg", 0, 10, 10⟩ (by decide)

/-! ### Claim C10 -/

/-- C10: a source entry whose image fails to decode during the matching
pass is emitted into that direction's delta list (it is neither dropped nor
does the pass abort). -/
theorem claim10_decode_failure_to_delta [Inhabited KP] (envI : ImgEnv Img Gray)
    (envO : OrbEnv Gray KP Desc Pt) (cfg : Config)
    (src_entries dst_entries : List Entry) (idx : List Nat → List Nat)
    (e : Entry) (he : e ∈ src_entries)
    (hload : envI.loadImage e.path cfg.max_side = none) :
    e.path ∈ (match_direction envI envO cfg src_entries dst_entries idx).2 := by
  rw [match_direction]
  suffices h : ∀ (l : List Entry) (cache : Cache Img), e ∈ l →
      e.path ∈ (matchFold envI envO cfg dst_entries idx l cache).2 by
    exact h src_entries [] he
  intro l
  induction l with
  | nil =>
    intro cache h0
    exact absurd h0 (List.not_mem_nil e)
  | cons e' rest ih =>
    intro cache h0
    rcases List.mem_cons.mp h0 with heq | hmem
    · subst heq
      have hbm : best_match envI envO cfg cache e dst_entries idx
          = (none, cache) := by
        simp only [best_match, hload]
      simp only [matchFold, hbm]
      exact List.mem_cons_self _ _
    · rcases hr : (best_match envI envO cfg cache e' dst_entries idx).1 with _ | m
      · simp only [matchFold, hr]
        exact List.mem_cons_of_mem _ (ih _ hmem)
      · simp only [matchFold, hr]
        exact ih _ hmem

/-- Witness for C10: with a decoder that fails on every file, the sole
source entry's path lands in the delta list. -/
theorem claim10_witness :
    entryA0.path ∈ (match_direction imgEnvNone orbEnvRich cfgWitness [entryA0]
      [entryB0] (build_chunk_index [entryB0])).2 :=
  claim10_decode_failure_to_delta imgEnvNone orbEnvRich cfgWitness [entryA0]
    [entryB0] (build_chunk_index [entryB0]) entryA0
    (List.mem_singleton.mpr rfl) rfl

/-! ### Claim C2 -/

section Partition

variable [Inhabited KP] {envI : ImgEnv Img Gray} {envO : OrbEnv Gray KP Desc Pt}
  {cfg : Config} {dst : List Entry} {idx : List Nat → List Nat}

theorem matchFold_length :
    ∀ (l : List Entry) (cache : Cache Img),
      (matchFold envI envO cfg dst idx l cache).1.length
        + (matchFold envI envO cfg dst idx l cache).2.length = l.length := by
  intro l
  induction l with
  | nil => intro cache; rfl
  | cons e rest ih =>
    intro cache
    rcases hr : (best_match envI envO cfg cache e dst idx).1 with _ | m
    · simp only [matchFold, hr, List.length_cons]
      have := ih ((best_match envI envO cfg cache e dst idx).2)
      omega
    · simp only [matchFold, hr, List.length_cons]
      have := ih ((best_match envI envO cfg cache e dst idx).2)
      omega

theorem matchFold_matches_pure :
    ∀ (l : List Entry) (cache : Cache Img), CacheOK envI cfg dst cache →
      ∀ cm ∈ (matchFold envI envO cfg dst idx l cache).1,
        best_match_pure envI envO cfg cm.srcPath dst idx ≠ none := by
  intro l
  induction l with
  | nil =>
    intro cache h cm hcm
    exact absurd hcm (List.not_mem_nil cm)
  | cons e rest ih =>
    intro cache h cm hcm
    have hspec := best_match_pure_spec envO h e idx
    rcases hr : (best_match envI envO cfg cache e dst idx).1 with _ | m
    · simp only [matchFold, hr] at hcm
      exact ih _ hspec.2 cm hcm
    · simp only [matchFold, hr] at hcm
      rcases List.mem_cons.mp hcm with heq | hmem
      · rw [heq]
        show best_match_pure envI envO cfg e.path dst idx ≠ none
        rw [← hspec.1, hr]
        simp
      · exact ih _ hspec.2 cm hmem

theorem matchFold_unmatched_pure :
    ∀ (l : List Entry) (cache : Cache Img), CacheOK envI cfg dst cache →
      ∀ p ∈ (matchFold envI envO cfg dst idx l cache).2,
        best_match_pure envI envO cfg p dst idx = none := by
  intro l
  induction l with
  | nil =>
    intro cache h p hp
    exact absurd hp (List.not_mem_nil p)
  | cons e rest ih =>
    intro cache h p hp
    have hspec := best_match_pure_spec envO h e idx
    rcases hr : (best_match envI envO cfg cache e dst idx).1 with _ | m
    · simp only [matchFold, hr] at hp
      rcases List.mem_cons.mp hp with heq | hmem
      · rw [heq, ← hspec.1, hr]
      · exact ih _ hspec.2 p hmem
    · simp only [matchFold, hr] at hp
      exact ih _ hspec.2 p hp

/-- C2: one directional pass partitions the source entries — the number of
emitted ConfirmedMatches plus the number of delta paths equals the number
of source entries, and no source path occurs both as a match's source and
in the delta list. -/
theorem claim2_direction_partition (envI : ImgEnv Img Gray)
    (envO : OrbEnv Gray KP Desc Pt) (cfg : Config)
    (src_entries dst_entries : List Entry) (idx : List Nat → List Nat) :
    (match_direction envI envO cfg src_entries dst_entries idx).1.length
      + (match_direction envI envO cfg src_entries dst_entries idx).2.length
      = src_entries.length ∧
    ∀ p, p ∈ (match_direction envI envO cfg src_entries dst_entries idx).1.map
        ConfirmedMatch.srcPath →
      p ∉ (match_direction envI envO cfg src_entries dst_entries idx).2 := by
  constructor
  · rw [match_direction]
    exact matchFold_length src_entries []
  · intro p hp hpm
    rw [match_direction] at hp hpm
    rcases List.mem_map.mp hp with ⟨cm, hcm, rfl⟩
    have h1 := matchFold_matches_pure src_entries [] (cacheOK_nil _ _ _) cm hcm
    have h2 := matchFold_unmatched_pure src_entries [] (cacheOK_nil _ _ _)
      cm.srcPath hpm
    exact h1 h2

end Partition

/-- Witness for C2 at a concrete input (one source entry whose decode
fails: zero matches plus one delta path). -/
theorem claim2_witness :
    (match_direction imgEnvNone orbEnvRich cfgWitness [entryA0] [entryB0]
        (build_chunk_index [entryB0])).1.length
      + (match_direction imgEnvNone orbEnvRich cfgWitness [entryA0] [entryB0]
        (build_chunk_index [entryB0])).2.length = 1 ∧
    ∀ p, p ∈ (match_direction imgEnvNone orbEnvRich cfgWitness [entryA0]
        [entryB0] (build_chunk_index [entryB0])).1.map
        ConfirmedMatch.srcPath →
      p ∉ (match_direction imgEnvNone orbEnvRich cfgWitness [entryA0]
        [entryB0] (build_chunk_index [entryB0])).2 :=
  claim2_direction_partition imgEnvNone orbEnvRich cfgWitness [entryA0]
    [entryB0] (build_chunk_index [entryB0])

/-! ### Lemmas about the persistent index store -/

section IndexStore

variable {envI : ImgEnv Img Gray} {ms : Nat}

theorem rowLookup_cons (r : Row) (db : List Row) (p : String) :
    rowLookup (r :: db) p = if r.path = p then some r else rowLookup db p := by
  by_cases h : r.path = p
  · rw [rowLookup, List.find?_cons_of_pos _ (by simpa using h), if_pos h]
  · rw [rowLookup, List.find?_cons_of_neg _ (by simpa using h), if_neg h]
    rfl

theorem sigLookup_eq_rowLookup (db : List Row) (p : String) :
    sigLookup db p = (rowLookup db p).map (fun r => (r.mtime, r.size)) := rfl

theorem rowLookup_map_update_ne (db : List Row) (r : Row) {p : String}
    (hne : r.path ≠ p) :
    rowLookup (db.map (fun r0 => if r0.path == r.path then r else r0)) p
      = rowLookup db p := by
  induction db with
  | nil => rfl
  | cons r0 rest ih =>
    rw [List.map_cons]
    by_cases h0 : r0.path = r.path
    · have hb : (r0.path == r.path) = true := by simpa using h0
      simp only [hb, if_true]
      rw [rowLookup_cons, rowLookup_cons, if_neg hne,
        if_neg (by rw [h0]; exact hne), ih]
    · have hb : (r0.path == r.path) = false := by simpa using h0
      simp only [hb, Bool.false_eq_true, if_false]
      rw [rowLookup_cons, rowLookup_cons, ih]

theorem rowLookup_append_single_ne (db : List Row) (r : Row) {p : String}
    (hne : r.path ≠ p) :
    rowLookup (db ++ [r]) p = rowLookup db p := by
  induction db with
  | nil =>
    rw [List.nil_append, rowLookup_cons, if_neg hne]
  | cons r0 rest ih =>
    rw [List.cons_append, rowLookup_cons, rowLookup_cons, ih]

theorem rowLookup_upsertRow_ne (db : List Row) (r : Row) {p : String}
    (hne : r.path ≠ p) :
    rowLookup (upsertRow db r) p = rowLookup db p := by
  rw [upsertRow]
  by_cases hany : db.any (fun r0 => r0.path == r.path)
  · rw [if_pos hany]
    exact rowLookup_map_update_ne db r hne
  · rw [if_neg hany]
    exact rowLookup_append_single_ne db r hne

theorem rowLookup_map_update_self (db : List Row) (r : Row)
    (hany : ∃ r0 ∈ db, r0.path = r.path) :
    rowLookup (db.map (fun r0 => if r0.path == r.path then r else r0)) r.path
      = some r := by
  induction db with
  | nil =>
    rcases hany with ⟨r0, h0, _⟩
    exact absurd h0 (List.not_mem_nil r0)
  | cons r0 rest ih =>
    rw [List.map_cons]
    by_cases h0 : r0.path = r.path
    · have hb : (r0.path == r.path) = true := by simpa using h0
      simp only [hb, if_true]
      rw [rowLookup_cons, if_pos rfl]
    · have hb : (r0.path == r.path) = false := by simpa using h0
      simp only [hb, Bool.false_eq_true, if_false]
      rw [rowLookup_cons, if_neg h0]
      apply ih
      rcases hany with ⟨r1, h1, hp1⟩
      rcases List.mem_cons.mp h1 with he1 | hm1
      · exact absurd (he1 ▸ hp1) h0
      · exact ⟨r1, hm1, hp1⟩

theorem rowLookup_append_single_self (db : List Row) (r : Row)
    (hnone : ∀ r0 ∈ db, r0.path ≠ r.path) :
    rowLookup (db ++ [r]) r.path = some r := by
  induction db with
  | nil =>
    rw [List.nil_append, rowLookup_cons, if_pos rfl]
  | cons r0 rest ih =>
    rw [List.cons_append, rowLookup_cons,
      if_neg (hnone r0 (List.mem_cons_self r0 rest))]
    exact ih (fun r1 h1 => hnone r1 (List.mem_cons_of_mem r0 h1))

theorem rowLookup_upsertRow_self (db : List Row) (r : Row) :
    rowLookup (upsertRow db r) r.path = some r := by
  rw [upsertRow]
  by_cases hany : db.any (fun r0 => r0.path == r.path)
  · rw [if_pos hany]
    apply rowLookup_map_update_self
    rcases List.any_eq_true.mp hany with ⟨r0, h0, hb⟩
    exact ⟨r0, h0, by simpa using hb⟩
  · rw [if_neg hany]
    apply rowLookup_append_single_self
    intro r0 h0 hp
    exact hany (List.any_eq_true.mpr ⟨r0, h0, by simpa using hp⟩)

theorem mem_paths_upsertRow {db : List Row} {r : Row} {q : String}
    (h : q ∈ (upsertRow db r).map Row.path) :
    q ∈ db.map Row.path ∨ q = r.path := by
  rw [upsertRow] at h
  by_cases hany : db.any (fun r0 => r0.path == r.path)
  · rw [if_pos hany] at h
    rcases List.mem_map.mp h with ⟨r1, h1, hq⟩
    rcases List.mem_map.mp h1 with ⟨r0, h0, hr1⟩
    by_cases hc : (r0.path == r.path) = true
    · rw [← hr1] at hq
      simp only [hc, if_true] at hq
      exact Or.inr hq.symm
    · have hb : (r0.path == r.path) = false := by simpa using hc
      rw [← hr1] at hq
      simp only [hb, Bool.false_eq_true, if_false] at hq
      exact Or.inl (List.mem_map.mpr ⟨r0, h0, hq⟩)
  · rw [if_neg hany, List.map_append] at h
    rcases List.mem_append.mp h with h1 | h2
    · exact Or.inl h1
    · exact Or.inr (by simpa using h2)

theorem processFiles_rowLookup_eq (fs : List DiskFile) :
    ∀ (db : List Row) (p : String),
      (∀ g ∈ fs, g.path = p → loadHash envI ms g.path = none) →
      rowLookup (processFiles envI ms fs db).1 p = rowLookup db p := by
  induction fs with
  | nil => intro db p _; rfl
  | cons f rest ih =>
    intro db p h
    rcases hld : loadHash envI ms f.path with _ | hsh
    · simp only [processFiles, hld]
      exact ih db p (fun g hg => h g (List.mem_cons_of_mem f hg))
    · simp only [processFiles, hld]
      have hne : f.path ≠ p := by
        intro hp
        have := h f (List.mem_cons_self f rest) hp
        rw [hld] at this
        exact Option.noConfusion this
      rw [ih _ p (fun g hg => h g (List.mem_cons_of_mem f hg))]
      exact rowLookup_upsertRow_ne db _ hne

theorem processFiles_rowLookup_loaded (fs : List DiskFile) :
    ∀ (db : List Row) (f : DiskFile) (h : List Nat),
      (fs.map DiskFile.path).Nodup → f ∈ fs →
      loadHash envI ms f.path = some h →
      rowLookup (processFiles envI ms fs db).1 f.path
        = some ⟨f.path, f.ext, h, f.mtime, f.size⟩ := by
  induction fs with
  | nil =>
    intro db f h _ hf _
    exact absurd hf (List.not_mem_nil f)
  | cons g rest ih =>
    intro db f h hnd hf hld
    rcases List.mem_cons.mp hf with heq | hmem
    · subst heq
      simp only [processFiles, hld]
      have hrest : ∀ g' ∈ rest, g'.path = f.path →
          loadHash envI ms g'.path = none := by
        intro g' hg' hp
        exfalso
        rw [List.map_cons, List.nodup_cons] at hnd
        exact hnd.1 (List.mem_map.mpr ⟨g', hg', hp⟩)
      rw [processFiles_rowLookup_eq rest _ f.path hrest]
      exact rowLookup_upsertRow_self db _
    · rw [List.map_cons, List.nodup_cons] at hnd
      rcases hldg : loadHash envI ms g.path with _ | hsg
      · simp only [processFiles, hldg]
        exact ih db f h hnd.2 hmem hld
      · simp only [processFiles, hldg]
        exact ih _ f h hnd.2 hmem hld

theorem processFiles_paths (fs : List DiskFile) :
    ∀ (db : List Row) (r : Row), r ∈ (processFiles envI ms fs db).1 →
      r.path ∈ db.map Row.path ∨ r.path ∈ fs.map DiskFile.path := by
  induction fs with
  | nil =>
    intro db r hr
    exact Or.inl (List.mem_map.mpr ⟨r, hr, rfl⟩)
  | cons f rest ih =>
    intro db r hr
    rcases hld : loadHash envI ms f.path with _ | hsh
    · simp only [processFiles, hld] at hr
      rcases ih db r hr with h1 | h2
      · exact Or.inl h1
      · exact Or.inr (List.mem_cons_of_mem _ h2)
    · simp only [processFiles, hld] at hr
      rcases ih _ r hr with h1 | h2
      · rcases mem_paths_upsertRow h1 with h3 | h4
        · exact Or.inl h3
        · exact Or.inr (by rw [List.map_cons, h4]; exact List.mem_cons_self _ _)
      · exact Or.inr (List.mem_cons_of_mem _ h2)

theorem processFiles_all_none (fs : List DiskFile) (db : List Row)
    (h : ∀ f ∈ fs, loadHash envI ms f.path = none) :
    processFiles envI ms fs db = (db, 0) := by
  induction fs with
  | nil => rfl
  | cons f rest ih =>
    have hld := h f (List.mem_cons_self f rest)
    simp only [processFiles, hld]
    exact ih (fun g hg => h g (List.mem_cons_of_mem f hg))

theorem rowLookup_filter_keep (db : List Row) (q : Row → Bool) (p : String)
    (hkeep : ∀ r ∈ db, r.path = p → q r = true) :
    rowLookup (db.filter q) p = rowLookup db p := by
  induction db with
  | nil => rfl
  | cons r rest ih =>
    rw [List.filter_cons]
    by_cases hq : q r = true
    · simp only [hq, if_true]
      rw [rowLookup_cons, rowLookup_cons]
      by_cases hp : r.path = p
      · rw [if_pos hp, if_pos hp]
      · rw [if_neg hp, if_neg hp]
        exact ih (fun r' h' hp' => hkeep r' (List.mem_cons_of_mem r h') hp')
    · have hrp : r.path ≠ p := fun hp =>
        hq (hkeep r (List.mem_cons_self r rest) hp)
      simp only [hq, Bool.false_eq_true, if_false]
      rw [rowLookup_cons, if_neg hrp]
      exact ih (fun r' h' hp' => hkeep r' (List.mem_cons_of_mem r h') hp')

end IndexStore

theorem nodup_path_inj {disk : List DiskFile}
    (hdisk : (disk.map DiskFile.path).Nodup) {f g : DiskFile}
    (hf : f ∈ disk) (hg : g ∈ disk) (hp : f.path = g.path) : f = g :=
  List.inj_on_of_nodup_map hdisk hf hg hp

/-! ### Claim C6 -/

/-- C6: reconciliation is idempotent — running `update_index` twice against
the same scan result performs zero upserts and zero deletes on the second
run and leaves the stored rows identical.  (The scan yields each path once,
which is the only hypothesis.) -/
theorem claim6_idempotent_reconciliation (envI : ImgEnv Img Gray) (ms : Nat)
    (disk : List DiskFile) (db : List Row)
    (hdisk : (disk.map DiskFile.path).Nodup) :
    (update_index envI ms disk (update_index envI ms disk db).1).1
      = (update_index envI ms disk db).1 ∧
    (update_index envI ms disk (update_index envI ms disk db).1).2.1 = 0 ∧
    (update_index envI ms disk (update_index envI ms disk db).1).2.2 = 0 := by
  set db1 := (update_index envI ms disk db).1 with hdb1
  have hpaths : ∀ r ∈ db1, r.path ∈ disk.map DiskFile.path := by
    intro r hr
    rw [hdb1] at hr
    simp only [update_index] at hr
    rcases processFiles_paths _ _ r hr with h1 | h2
    · rcases List.mem_map.mp h1 with ⟨r0, hr0, hq⟩
      have hk := (List.mem_filter.mp hr0).2
      rcases List.any_eq_true.mp hk with ⟨f, hf, hb⟩
      rw [← hq]
      exact List.mem_map.mpr ⟨f, hf, by simpa using hb⟩
    · rcases List.mem_map.mp h2 with ⟨f, hf, hq⟩
      exact List.mem_map.mpr ⟨f, (List.mem_filter.mp hf).1, hq⟩
  have hanyall : ∀ r ∈ db1, (disk.any (fun f => f.path == r.path)) = true := by
    intro r hr
    rcases List.mem_map.mp (hpaths r hr) with ⟨f, hf, hq⟩
    exact List.any_eq_true.mpr ⟨f, hf, by simpa using hq⟩
  have hstale2 : db1.filter
      (fun r => ¬ disk.any (fun f => f.path == r.path)) = [] := by
    rw [List.filter_eq_nil_iff]
    intro r hr
    simp [hanyall r hr]
  have hkeep2 : db1.filter
      (fun r => disk.any (fun f => f.path == r.path)) = db1 := by
    rw [List.filter_eq_self]
    intro r hr
    exact hanyall r hr
  have hnone2 : ∀ f ∈ disk.filter
      (fun f => sigLookup db1 f.path ≠ some (f.mtime, f.size)),
      loadHash envI ms f.path = none := by
    intro f hf2
    have hfd : f ∈ disk := (List.mem_filter.mp hf2).1
    have hne2 : sigLookup db1 f.path ≠ some (f.mtime, f.size) := by
      have := (List.mem_filter.mp hf2).2
      simpa using this
    rcases hld : loadHash envI ms f.path with _ | h
    · rfl
    · exfalso
      apply hne2
      rw [hdb1]
      simp only [update_index]
      by_cases hfp : f ∈ disk.filter
          (fun f => sigLookup db f.path ≠ some (f.mtime, f.size))
      · have hnod : ((disk.filter
            (fun f => sigLookup db f.path ≠ some (f.mtime, f.size))).map
            DiskFile.path).Nodup :=
          List.Nodup.sublist (List.Sublist.map _ (List.filter_sublist _)) hdisk
        have := processFiles_rowLookup_loaded _
          (db.filter (fun r => disk.any (fun f => f.path == r.path))) f h
          hnod hfp hld
        rw [sigLookup_eq_rowLookup, this]
        rfl
      · have hsig : sigLookup db f.path = some (f.mtime, f.size) := by
          by_contra hcon
          exact hfp (List.mem_filter.mpr ⟨hfd, by simpa using hcon⟩)
        have hEq : ∀ g ∈ disk.filter
            (fun f => sigLookup db f.path ≠ some (f.mtime, f.size)),
            g.path = f.path → loadHash envI ms g.path = none := by
          intro g hg hp
          exfalso
          have hgd : g ∈ disk := (List.mem_filter.mp hg).1
          have hgf : g = f := nodup_path_inj hdisk hgd hfd hp
          rw [hgf] at hg
          exact hfp hg
        rw [sigLookup_eq_rowLookup, processFiles_rowLookup_eq _ _ _ hEq,
          rowLookup_filter_keep _ _ _ ?_, ← sigLookup_eq_rowLookup, hsig]
        intro r hr hp
        exact List.any_eq_true.mpr ⟨f, hfd, by simpa using hp.symm⟩
  refine ⟨?_, ?_, ?_⟩
  · show (update_index envI ms disk db1).1 = db1
    simp only [update_index]
    rw [hkeep2, processFiles_all_none _ _ hnone2]
  · show (update_index envI ms disk db1).2.1 = 0
    simp only [update_index]
    rw [hkeep2, processFiles_all_none _ _ hnone2]
  · show (update_index envI ms disk db1).2.2 = 0
    simp only [update_index]
    rw [hstale2]
    rfl

/-- Witness for C6 on a concrete filesystem with one decodable and one
broken file, starting from an empty store. -/
theorem claim6_witness :
    (diskW.map DiskFile.path).Nodup ∧
    ((update_index imgEnvPartial 900 diskW
        (update_index imgEnvPartial 900 diskW ([] : List Row)).1).1
      = (update_index imgEnvPartial 900 diskW ([] : List Row)).1 ∧
    (update_index imgEnvPartial 900 diskW
        (update_index imgEnvPartial 900 diskW ([] : List Row)).1).2.1 = 0 ∧
    (update_index imgEnvPartial 900 diskW
        (update_index imgEnvPartial 900 diskW ([] : List Row)).1).2.2 = 0) :=
  ⟨by decide,
    claim6_idempotent_reconciliation imgEnvPartial 900 diskW [] (by decide)⟩

/-! ### Claim C8 -/

/-- C8: a file whose decode fails during reconciliation is skipped
silently — the store keeps exactly the row (or absence of a row) it had
for that path, and the reprocessing loop behaves as if the file were not
in its work list at all, so the remaining files are still processed.  The
loader itself is embedded as a total function into `Option`
(`load_image` converts every decode error into `None`). -/
theorem claim8_decode_failure_skipped (envI : ImgEnv Img Gray) (ms : Nat)
    (disk : List DiskFile) (db : List Row) (f : DiskFile)
    (hf : f ∈ disk) (hld : loadHash envI ms f.path = none) :
    rowLookup (update_index envI ms disk db).1 f.path = rowLookup db f.path ∧
    ∀ (l1 l2 : List DiskFile) (db0 : List Row),
      processFiles envI ms (l1 ++ f :: l2) db0
        = processFiles envI ms (l1 ++ l2) db0 := by
  constructor
  · simp only [update_index]
    rw [processFiles_rowLookup_eq _ _ _ (fun g _ hp => by rw [hp]; exact hld)]
    apply rowLookup_filter_keep
    intro r hr hp
    exact List.any_eq_true.mpr ⟨f, hf, by simpa using hp.symm⟩
  · intro l1
    induction l1 with
    | nil =>
      intro l2 db0
      simp only [List.nil_append, processFiles, hld]
    | cons g rest ih =>
      intro l2 db0
      rcases hg : loadHash envI ms g.path with _ | hsh
      · simp only [List.cons_append, processFiles, hg]
        exact ih l2 db0
      · simp only [List.cons_append, processFiles, hg]
        exact congrArg (fun r => (r.1, r.2 + 1)) (ih l2 _)

/-- Witness for C8: the broken file of `diskW` leaves the (empty) store
untouched at its path while the decodable file is still processed. -/
theorem claim8_witness :
    rowLookup (update_index imgEnvPartial 900 diskW ([] : List Row)).1
        (⟨"bad.jpg", ".jpg", 6, 200⟩ : DiskFile).path
      = rowLookup ([] : List Row)
        (⟨"bad.jpg", ".jpg", 6, 200⟩ : DiskFile).path ∧
    ∀ (l1 l2 : List DiskFile) (db0 : List Row),
      processFiles imgEnvPartial 900
          (l1 ++ (⟨"bad.jpg", ".jpg", 6, 200⟩ : DiskFile) :: l2) db0
        = processFiles imgEnvPartial 900 (l1 ++ l2) db0 :=
  claim8_decode_failure_skipped imgEnvPartial 900 diskW []
    ⟨"bad.jpg", ".jpg", 6, 200⟩ (by decide) (by decide)

/-! ### Claim C7 -/

/-- C7: when either set's reconciled index holds zero entries, the run
terminates with `SystemExit` and the corresponding descriptive message
(modelled as the `Except.error` outcome, under which none of the four
output payloads exists), while the reconciliation already performed on both
stores persists. -/
theorem claim7_empty_index_aborts [Inhabited KP] (envI : ImgEnv Img Gray)
    (envO : OrbEnv Gray KP Desc Pt) (cfg : Config)
    (diskA diskB : List DiskFile) (dbA dbB : List Row)
    (h : load_entries (update_index envI cfg.max_side diskA dbA).1 = []
      ∨ load_entries (update_index envI cfg.max_side diskB dbB).1 = []) :
    ((mainRun envI envO cfg diskA diskB dbA dbB).2
        = Except.error "Set A indexed 0 files. Check extensions and path."
      ∨ (mainRun envI envO cfg diskA diskB dbA dbB).2
        = Except.error "Set B indexed 0 files. Check extensions and path.") ∧
    (mainRun envI envO cfg diskA diskB dbA dbB).1
      = ((update_index envI cfg.max_side diskA dbA).1,
         (update_index envI cfg.max_side diskB dbB).1) := by
  constructor
  · by_cases hA : load_entries (update_index envI cfg.max_side diskA dbA).1 = []
    · left
      simp [mainRun, hA]
    · right
      have hB : load_entries (update_index envI cfg.max_side diskB dbB).1
          = [] := by
        rcases h with h1 | h2
        · exact absurd h1 hA
        · exact h2
      have hAne : (load_entries
          (update_index envI cfg.max_side diskA dbA).1).isEmpty = false := by
        cases hc : load_entries (update_index envI cfg.max_side diskA dbA).1 with
        | nil => exact absurd hc hA
        | cons a l => rfl
      simp [mainRun, hAne, hB]
  · rfl

/-- Witness for C7: two empty scans over empty stores abort with Set A's
message and persist the (empty) reconciled stores. -/
theorem claim7_witness :
    (load_entries (update_index imgEnvZero cfgWitness.max_side []
        ([] : List Row)).1 = []
      ∨ load_entries (update_index imgEnvZero cfgWitness.max_side []
        ([] : List Row)).1 = []) ∧
    (((mainRun imgEnvZero orbEnvRich cfgWitness [] [] [] []).2
        = Except.error "Set A indexed 0 files. Check extensions and path."
      ∨ (mainRun imgEnvZero orbEnvRich cfgWitness [] [] [] []).2
        = Except.error "Set B indexed 0 files. Check extensions and path.") ∧
    (mainRun imgEnvZero orbEnvRich cfgWitness [] [] [] []).1
      = ((update_index imgEnvZero cfgWitness.max_side [] ([] : List Row)).1,
         (update_index imgEnvZero cfgWitness.max_side [] ([] : List Row)).1)) :=
  ⟨Or.inl rfl,
    claim7_empty_index_aborts imgEnvZero orbEnvRich cfgWitness [] [] [] []
      (Or.inl rfl)⟩

end FolderSetDelta
